import Mathlib

/-!
Verification of the segment-replacement engine of `opencc_purepy`
(`core.py`, `merge_dicts.py`, `starter_index.py`, `dictionary_lib.py`).

Python strings are modelled as Lean `String` / `List Char`: both index by
Unicode scalar values, matching Python 3 `str` semantics (`ord`, `len`,
slicing).  A Python `dict[str, str]` is modelled as an association list
`PyDict` with first-match lookup (`dictGet`, the model of `d.get(k)`) and
replace-or-append insertion (`setItem`, the model of `d[k] = v`): a real
Python dict never holds a duplicate key, and on such lists `dictGet`
agrees with Python lookup; `setItem` preserves the no-duplicate property
exactly as Python assignment does.
-/

/-- Model of Python `dict[str, str]`: association list, lookup takes the first match. -/
abbrev PyDict := List (String × String)

/-- Model of Python `d.get(k)` (`None` ↦ `none`). -/
def dictGet : PyDict → String → Option String
  | [], _ => none
  | (k0, v0) :: rest, k => if k0 = k then some v0 else dictGet rest k

/-- Model of Python `d[k] = v`: replace the first binding of `k`, else append. -/
def setItem : PyDict → String → String → PyDict
  | [], k, v => [(k, v)]
  | (k0, v0) :: rest, k, v =>
      if k0 = k then (k, v) :: rest else (k0, v0) :: setItem rest k v

/-- Model of Python `m.update(d)`: assign every binding of `d` into `m`, in order. -/
def dictUpdate : PyDict → PyDict → PyDict
  | m, [] => m
  | m, (k, v) :: rest => dictUpdate (setItem m k v) rest

/-- `merge_dicts.merge_in_precedence`: `merged = {}` then `merged.update(d)`
for each `d` in order — later dictionaries override earlier ones. -/
def merge_in_precedence (dicts : List PyDict) : PyDict :=
  dicts.foldl dictUpdate []

/-- The value `merge_in_precedence` actually stores for a key: scanning the
slot list left to right, the *last* slot containing the key wins (and inside
one slot the last binding wins, i.e. lookup in the reversed slot). -/
def lastSlotGet (dicts : List PyDict) (k : String) : Option String :=
  dicts.foldl
    (fun acc d =>
      match dictGet d.reverse k with
      | some v => some v
      | none => acc)
    none

theorem dictGet_setItem (m : PyDict) (k0 v0 k : String) :
    dictGet (setItem m k0 v0) k = if k0 = k then some v0 else dictGet m k := by
  induction m with
  | nil => simp [setItem, dictGet]
  | cons hd tl ih =>
      obtain ⟨k1, v1⟩ := hd
      by_cases h1 : k1 = k0
      · subst h1
        by_cases h2 : k1 = k <;> simp [setItem, dictGet, h2]
      · by_cases h2 : k1 = k
        · subst h2
          simp [setItem, dictGet, h1]
          rw [if_neg (fun h => h1 h.symm)]
        · simp [setItem, dictGet, h1, h2, ih]

theorem dictGet_append (a b : PyDict) (k : String) :
    dictGet (a ++ b) k =
      match dictGet a k with
      | some v => some v
      | none => dictGet b k := by
  induction a with
  | nil => simp [dictGet]
  | cons hd tl ih =>
      obtain ⟨k0, v0⟩ := hd
      by_cases h : k0 = k <;> simp [dictGet, h, ih]

theorem dictGet_dictUpdate (d : PyDict) :
    ∀ (m : PyDict) (k : String),
      dictGet (dictUpdate m d) k =
        match dictGet d.reverse k with
        | some v => some v
        | none => dictGet m k := by
  induction d with
  | nil => intro m k; simp [dictUpdate, dictGet]
  | cons hd tl ih =>
      intro m k
      obtain ⟨k0, v0⟩ := hd
      have hrev : ((k0, v0) :: tl).reverse = tl.reverse ++ [(k0, v0)] := by
        simp
      rw [show dictUpdate m ((k0, v0) :: tl) = dictUpdate (setItem m k0 v0) tl from rfl,
        ih, hrev, dictGet_append]
      rcases hfind : dictGet tl.reverse k with _ | v
      · simp [dictGet_setItem]
        by_cases h : k0 = k <;> simp [dictGet, h]
      · simp

/-- Characterisation of the merged map, for any initial accumulator. -/
theorem dictGet_foldl_dictUpdate (dicts : List PyDict) :
    ∀ (m : PyDict) (k : String),
      dictGet (dicts.foldl dictUpdate m) k =
        dicts.foldl
          (fun acc d =>
            match dictGet d.reverse k with
            | some v => some v
            | none => acc)
          (dictGet m k) := by
  induction dicts with
  | nil => intro m k; simp
  | cons d rest ih =>
      intro m k
      simp only [List.foldl_cons]
      rw [ih, dictGet_dictUpdate]

/-- Shared helper: what `merge_in_precedence` stores for each key. -/
theorem dictGet_merge (dicts : List PyDict) (k : String) :
    dictGet (merge_in_precedence dicts) k = lastSlotGet dicts k := by
  unfold merge_in_precedence lastSlotGet
  rw [dictGet_foldl_dictUpdate]
  rfl

/-- **C1, counterexample.**  Two slots of one round both bind `"a"`; the claim
says the merged map keeps the earliest slot's value `"x"`, but
`merge_in_precedence` (built with `dict.update`) stores the latest slot's
value `"y"`. -/
theorem C1_counterexample :
    dictGet (merge_in_precedence [[("a", "x")], [("a", "y")]]) "a" = some "y" ∧
      ("y" : String) ≠ "x" := by
  constructor
  · rfl
  · decide

/-- **C1, amended.**  For every round whose slots contain the same key in more
than one slot, the value stored in the merged map is the value from the
*latest* slot of the round (and, within a slot, the last binding): merging
copies each slot in order with `dict.update`, so later insertions override
earlier ones. -/
theorem C1_amended (dicts : List PyDict) (k : String) :
    dictGet (merge_in_precedence dicts) k = lastSlotGet dicts k :=
  dictGet_merge dicts k

/-! ## Segmenter (`OpenCC.get_split_ranges`) -/

/-- The delimiter set `DELIMITERS` of `core.py`, verbatim. -/
def DELIMITERS : List Char :=
  [' ', '\t', '\n', '\r', '!', '"', '#', '$', '%', '&', '\'', '(', ')', '*',
   '+', ',', '-', '.', '/', ':', ';', '<', '=', '>', '?', '@', '[', '\\',
   ']', '^', '_', '{', '}', '|', '~', '＝', '、', '。', '“', '”', '‘', '’',
   '『', '』', '「', '」', '﹁', '﹂', '—', '－', '（', '）', '《', '》', '〈',
   '〉', '？', '！', '…', '／', '＼', '︒', '︑', '︔', '︓', '︿', '﹀', '︹',
   '︺', '︙', '︐', '［', '﹇', '］', '﹈', '︕', '︖', '︰', '︳', '︴', '︽',
   '︾', '︵', '︶', '｛', '︷', '｝', '︸', '﹃', '﹄', '【', '︻', '】', '︼',
   '　', '～', '．', '，', '；', '：']

/-- Model of the `finditer` loop of `OpenCC.get_split_ranges`.  The compiled
regex is a character class over `DELIMITERS`, so it matches exactly the
single-character delimiter occurrences, left to right: the loop body runs
once per delimiter position, with `match.start() = pos` and
`match.end() = pos + 1`.  `cs` is the unscanned suffix, `pos` its scalar
index in the full text, `start` the running segment start; the `[]` case is
the trailing `if start < len(text)` append. -/
def splitRangesAux (inclusive : Bool) : List Char → Nat → Nat → List (Nat × Nat)
  | [], pos, start => if start < pos then [(start, pos)] else []
  | c :: rest, pos, start =>
      if DELIMITERS.contains c then
        if inclusive then
          (start, pos + 1) :: splitRangesAux inclusive rest (pos + 1) (pos + 1)
        else
          (if pos > start then [(start, pos)] else []) ++ ((pos, pos + 1) ::
            splitRangesAux inclusive rest (pos + 1) (pos + 1))
      else
        splitRangesAux inclusive rest (pos + 1) start

/-- `OpenCC.get_split_ranges`. -/
def get_split_ranges (text : String) (inclusive : Bool) : List (Nat × Nat) :=
  splitRangesAux inclusive text.data 0 0

/-- Python slice `t[s:e]` on a scalar list (for `0 ≤ s ≤ e ≤ len`). -/
def pySliceChars (t : List Char) (s e : Nat) : List Char :=
  (t.drop s).take (e - s)

/-- Python slice `text[s:e]` on strings. -/
def pySlice (t : String) (s e : Nat) : String :=
  String.mk (pySliceChars t.data s e)

/-- Model of Python `''.join(parts)`. -/
def strJoin (l : List String) : String :=
  String.mk (l.map String.data).flatten


theorem splitRangesAux_inclusive_join (full : List Char) :
    ∀ (rest pre : List Char) (start : Nat),
      full = pre ++ rest → start ≤ pre.length →
      ((splitRangesAux true rest pre.length start).map
          (fun p => pySliceChars full p.1 p.2)).flatten = full.drop start := by
  intro rest
  induction rest with
  | nil =>
      intro pre start hfull hstart
      subst hfull
      simp only [splitRangesAux]
      by_cases h : start < pre.length
      · simp only [if_pos h, List.map_cons, List.map_nil, List.flatten_cons,
          List.flatten_nil, List.append_nil]
        simp only [pySliceChars]
        rw [List.take_of_length_le (by simp)]
      · have hle : pre.length ≤ start := by omega
        simp only [if_neg h, List.map_nil, List.flatten_nil]
        rw [List.drop_eq_nil_of_le (by simpa using hle)]
  | cons c rest ih =>
      intro pre start hfull hstart
      simp only [splitRangesAux]
      by_cases hc : DELIMITERS.contains c
      · simp only [hc, if_true, List.map_cons, List.flatten_cons]
        have hfull' : full = (pre ++ [c]) ++ rest := by simp [hfull]
        have hrec := ih (pre ++ [c]) (pre.length + 1) hfull' (by simp)
        rw [show (pre ++ [c] : List Char).length = pre.length + 1 by simp] at hrec
        rw [hrec]
        have hdd : full.drop (pre.length + 1) =
            (full.drop start).drop (pre.length + 1 - start) := by
          rw [List.drop_drop]
          congr 1
          omega
        rw [pySliceChars, hdd, List.take_append_drop]
      · simp only [hc, Bool.false_eq_true, if_false]
        have hfull' : full = (pre ++ [c]) ++ rest := by simp [hfull]
        have hrec := ih (pre ++ [c]) start hfull' (by simp; omega)
        rw [show (pre ++ [c] : List Char).length = pre.length + 1 by simp] at hrec
        exact hrec

/-- **C4 (confirmed).**  Segmentation totality: concatenating `text[s:e]`
over the ranges returned by `get_split_ranges(text, inclusive=True)` yields
exactly the original text — no character dropped, duplicated or reordered. -/
theorem C4_segmentation_totality (text : String) :
    strJoin ((get_split_ranges text true).map (fun p => pySlice text p.1 p.2)) =
      text := by
  have hchars :
      ((get_split_ranges text true).map
        (fun p => pySliceChars text.data p.1 p.2)).flatten = text.data := by
    have := splitRangesAux_inclusive_join text.data text.data [] 0 (by simp)
      (by simp)
    simpa [get_split_ranges] using this
  unfold strJoin
  have hmm : ((get_split_ranges text true).map (fun p => pySlice text p.1 p.2)).map
      String.data = (get_split_ranges text true).map
        (fun p => pySliceChars text.data p.1 p.2) := by
    simp [Function.comp, pySlice]
  rw [hmm, hchars]

/-! ## StarterIndex (`starter_index.py`)

The dense `array('Q')` / `array('H')` tables and the astral `dict`s are
modelled as total maps `Nat → Nat` that are zero outside the recorded
entries — exactly the observable behaviour of a zero-initialised array and
of `dict.get(cp, 0)`.  `1 << (L-1)` is written `2 ^ (L-1)` and `x |= b` as
`x ||| b`. -/

structure StarterIndex where
  bmp_mask : Nat → Nat
  bmp_cap : Nat → Nat
  astral_mask : Nat → Nat
  astral_cap : Nat → Nat
  global_cap : Nat

/-- `StarterIndex.__init__`: empty tables, `global_cap` clamped to `[1, 64]`. -/
def StarterIndex.init (global_cap : Nat) : StarterIndex where
  bmp_mask := fun _ => 0
  bmp_cap := fun _ => 0
  astral_mask := fun _ => 0
  astral_cap := fun _ => 0
  global_cap := min (max 1 global_cap) 64

/-- `StarterIndex._mark`: record a key's starter codepoint and length. -/
def StarterIndex.mark (idx : StarterIndex) (cp L : Nat) : StarterIndex :=
  if 1 ≤ L ∧ L ≤ idx.global_cap then
    if cp ≤ 0xFFFF then
      { idx with
        bmp_mask := fun x =>
          if x = cp then idx.bmp_mask cp ||| 2 ^ (L - 1) else idx.bmp_mask x
        bmp_cap := fun x =>
          if x = cp then
            (if idx.bmp_cap cp < L then L else idx.bmp_cap cp)
          else idx.bmp_cap x }
    else
      { idx with
        astral_mask := fun x =>
          if x = cp then idx.astral_mask cp ||| 2 ^ (L - 1) else idx.astral_mask x
        astral_cap := fun x =>
          if x = cp then
            (if idx.astral_cap cp < L then L else idx.astral_cap cp)
          else idx.astral_cap x }
  else idx

/-- `StarterIndex.build`: mark every non-empty key of every dictionary;
`ord(k[0])` is the first scalar value, `len(k)` the scalar count. -/
def StarterIndex.build (dicts : List PyDict) (global_cap : Nat) : StarterIndex :=
  dicts.foldl
    (fun idx d =>
      d.foldl
        (fun idx kv =>
          match kv.1.data with
          | [] => idx
          | c :: _ => idx.mark c.toNat kv.1.length)
        idx)
    (StarterIndex.init (min global_cap 64))

/-- `StarterIndex.get_mask_cap`. -/
def StarterIndex.get_mask_cap (idx : StarterIndex) (cp : Nat) : Nat × Nat :=
  if cp ≤ 0xFFFF then (idx.bmp_mask cp, idx.bmp_cap cp)
  else (idx.astral_mask cp, idx.astral_cap cp)

/-- The mask the index holds for a starter, through `get_mask_cap`. -/
def StarterIndex.maskAt (idx : StarterIndex) (cp : Nat) : Nat :=
  (idx.get_mask_cap cp).1

/-- The cap the index holds for a starter, through `get_mask_cap`. -/
def StarterIndex.capAt (idx : StarterIndex) (cp : Nat) : Nat :=
  (idx.get_mask_cap cp).2

theorem StarterIndex.global_cap_mark (idx : StarterIndex) (cp L : Nat) :
    (idx.mark cp L).global_cap = idx.global_cap := by
  unfold StarterIndex.mark
  split <;> [skip; rfl]
  split <;> rfl

theorem if_lt_eq_max (a L : Nat) : (if a < L then L else a) = max a L := by
  rcases Nat.lt_or_ge a L with h | h
  · rw [if_pos h, Nat.max_eq_right (Nat.le_of_lt h)]
  · rw [if_neg (by omega), Nat.max_eq_left h]

theorem StarterIndex.maskAt_mark (idx : StarterIndex) (cp L x : Nat) :
    (idx.mark cp L).maskAt x =
      if (1 ≤ L ∧ L ≤ idx.global_cap) ∧ x = cp then
        idx.maskAt x ||| 2 ^ (L - 1)
      else idx.maskAt x := by
  unfold StarterIndex.mark StarterIndex.maskAt StarterIndex.get_mask_cap
  by_cases hL : 1 ≤ L ∧ L ≤ idx.global_cap
  · by_cases hx : x = cp
    · subst hx
      by_cases hcp : x ≤ 0xFFFF <;> simp [hL, hcp]
    · by_cases hcp : cp ≤ 0xFFFF <;> by_cases hx2 : x ≤ 0xFFFF <;>
        simp [hL, hx, hcp, hx2]
  · simp [hL]

theorem StarterIndex.capAt_mark (idx : StarterIndex) (cp L x : Nat) :
    (idx.mark cp L).capAt x =
      if (1 ≤ L ∧ L ≤ idx.global_cap) ∧ x = cp then
        max (idx.capAt x) L
      else idx.capAt x := by
  unfold StarterIndex.mark StarterIndex.capAt StarterIndex.get_mask_cap
  by_cases hL : 1 ≤ L ∧ L ≤ idx.global_cap
  · by_cases hx : x = cp
    · subst hx
      by_cases hcp : x ≤ 0xFFFF <;> simp [hL, hcp, if_lt_eq_max]
    · by_cases hcp : cp ≤ 0xFFFF <;> by_cases hx2 : x ≤ 0xFFFF <;>
        simp [hL, hx, hcp, hx2]
  · simp [hL]

/-- **C6, counterexample.**  Build an index with `global_cap = 1` from a
dictionary with the two-scalar key `"ab"`.  The claim says the over-long key
is still recorded with its bit clamped to the cap (a bit below `G` set); in
fact `_mark` returns early for `L > global_cap`, so the key is omitted
entirely: mask and cap for starter `'a'` (codepoint 97) are both zero. -/
theorem C6_counterexample :
    (StarterIndex.build [[("ab", "X")]] 1).get_mask_cap 97 = (0, 0) ∧
      ("ab" : String).length = 2 := by
  constructor
  · rfl
  · rfl

/-! ### Characterisation of `StarterIndex.build` -/

/-- The `(ord(k[0]), len(k))` pair `_mark` receives for a key, `none` for the
skipped empty key. -/
def markOfKey (k : String) : Option (Nat × Nat) :=
  match k.data with
  | [] => none
  | c :: _ => some (c.toNat, k.length)

/-- All `_mark` calls `build` performs, in order. -/
def marksOf (dicts : List PyDict) : List (Nat × Nat) :=
  (dicts.flatMap (fun d => d.map Prod.fst)).filterMap markOfKey

/-- Folding `_mark` over a list of `(cp, L)` pairs. -/
def foldMark (ps : List (Nat × Nat)) (idx : StarterIndex) : StarterIndex :=
  ps.foldl (fun i p => i.mark p.1 p.2) idx

theorem foldMark_append (a b : List (Nat × Nat)) (idx : StarterIndex) :
    foldMark (a ++ b) idx = foldMark b (foldMark a idx) := by
  unfold foldMark
  rw [List.foldl_append]

theorem dict_foldl_mark (d : PyDict) :
    ∀ idx : StarterIndex,
      d.foldl
        (fun idx kv =>
          match kv.1.data with
          | [] => idx
          | c :: _ => idx.mark c.toNat kv.1.length)
        idx =
      foldMark ((d.map Prod.fst).filterMap markOfKey) idx := by
  induction d with
  | nil => intro idx; rfl
  | cons kv rest ih =>
      intro idx
      simp only [List.foldl_cons, List.map_cons, List.filterMap_cons]
      rcases hk : kv.1.data with _ | ⟨c, cs⟩
      · simp only [markOfKey, hk]
        exact ih idx
      · simp only [markOfKey, hk]
        rw [ih]
        rfl

theorem build_eq_foldMark (dicts : List PyDict) (global_cap : Nat) :
    StarterIndex.build dicts global_cap =
      foldMark (marksOf dicts) (StarterIndex.init (min global_cap 64)) := by
  unfold StarterIndex.build marksOf
  generalize StarterIndex.init (min global_cap 64) = idx
  induction dicts generalizing idx with
  | nil => rfl
  | cons d rest ih =>
      simp only [List.foldl_cons, List.flatMap_cons, List.filterMap_append]
      rw [dict_foldl_mark, ih, foldMark_append]

theorem foldMark_global_cap (ps : List (Nat × Nat)) :
    ∀ idx : StarterIndex, (foldMark ps idx).global_cap = idx.global_cap := by
  induction ps with
  | nil => intro idx; rfl
  | cons p rest ih =>
      intro idx
      show (foldMark rest (idx.mark p.1 p.2)).global_cap = _
      rw [ih, StarterIndex.global_cap_mark]

theorem foldMark_testBit (ps : List (Nat × Nat)) :
    ∀ (idx : StarterIndex) (x i : Nat),
      Nat.testBit ((foldMark ps idx).maskAt x) i = true ↔
        (Nat.testBit (idx.maskAt x) i = true ∨
          ∃ p ∈ ps, p.1 = x ∧ p.2 = i + 1 ∧ p.2 ≤ idx.global_cap) := by
  induction ps with
  | nil =>
      intro idx x i
      simp [foldMark]
  | cons p rest ih =>
      intro idx x i
      have hstep : foldMark (p :: rest) idx = foldMark rest (idx.mark p.1 p.2) := rfl
      rw [hstep, ih, StarterIndex.maskAt_mark, StarterIndex.global_cap_mark]
      by_cases hc : (1 ≤ p.2 ∧ p.2 ≤ idx.global_cap) ∧ x = p.1
      · rw [if_pos hc]
        rw [Nat.testBit_lor]
        constructor
        · intro h
          rcases h with h | h
          · rcases Bool.or_eq_true_iff.mp h with h1 | h1
            · exact Or.inl h1
            · rw [Nat.testBit_two_pow] at h1
              have hL : p.2 = i + 1 := by
                have := of_decide_eq_true h1
                omega
              exact Or.inr ⟨p, List.mem_cons_self p rest, hc.2.symm, hL, hc.1.2⟩
          · rcases h with ⟨q, hq, h1, h2, h3⟩
            exact Or.inr ⟨q, List.mem_cons_of_mem p hq, h1, h2, h3⟩
        · intro h
          rcases h with h | ⟨q, hq, h1, h2, h3⟩
          · exact Or.inl (Bool.or_eq_true_iff.mpr (Or.inl h))
          · rcases List.mem_cons.mp hq with rfl | hq'
            · refine Or.inl (Bool.or_eq_true_iff.mpr (Or.inr ?_))
              rw [Nat.testBit_two_pow]
              exact decide_eq_true (by omega)
            · exact Or.inr ⟨q, hq', h1, h2, h3⟩
      · rw [if_neg hc]
        constructor
        · intro h
          rcases h with h | ⟨q, hq, h1, h2, h3⟩
          · exact Or.inl h
          · exact Or.inr ⟨q, List.mem_cons_of_mem p hq, h1, h2, h3⟩
        · intro h
          rcases h with h | ⟨q, hq, h1, h2, h3⟩
          · exact Or.inl h
          · rcases List.mem_cons.mp hq with rfl | hq'
            · exact absurd ⟨⟨by omega, h3⟩, h1.symm⟩ hc
            · exact Or.inr ⟨q, hq', h1, h2, h3⟩

theorem foldMark_capAt_mono (ps : List (Nat × Nat)) :
    ∀ (idx : StarterIndex) (x : Nat), idx.capAt x ≤ (foldMark ps idx).capAt x := by
  induction ps with
  | nil => intro idx x; exact Nat.le_refl _
  | cons p rest ih =>
      intro idx x
      have hstep : foldMark (p :: rest) idx = foldMark rest (idx.mark p.1 p.2) := rfl
      rw [hstep]
      refine Nat.le_trans ?_ (ih (idx.mark p.1 p.2) x)
      rw [StarterIndex.capAt_mark]
      split
      · exact Nat.le_max_left _ _
      · exact Nat.le_refl _

theorem foldMark_capAt_ge (ps : List (Nat × Nat)) :
    ∀ (idx : StarterIndex) (p : Nat × Nat), p ∈ ps → p.1 = x → 1 ≤ p.2 →
      p.2 ≤ idx.global_cap → p.2 ≤ (foldMark ps idx).capAt x := by
  induction ps with
  | nil => intro idx p hp; cases hp
  | cons q rest ih =>
      intro idx p hp h1 h2 h3
      have hstep : foldMark (q :: rest) idx = foldMark rest (idx.mark q.1 q.2) := rfl
      rw [hstep]
      rcases List.mem_cons.mp hp with rfl | hp'
      · refine Nat.le_trans ?_ (foldMark_capAt_mono rest (idx.mark p.1 p.2) x)
        rw [StarterIndex.capAt_mark, if_pos ⟨⟨h2, h3⟩, h1.symm⟩]
        exact Nat.le_max_right _ _
      · exact ih (idx.mark q.1 q.2) p hp' h1 h2
          (by rw [StarterIndex.global_cap_mark]; exact h3)

theorem init_maskAt (g x : Nat) : (StarterIndex.init g).maskAt x = 0 := by
  unfold StarterIndex.init StarterIndex.maskAt StarterIndex.get_mask_cap
  split <;> rfl

theorem init_capAt (g x : Nat) : (StarterIndex.init g).capAt x = 0 := by
  unfold StarterIndex.init StarterIndex.capAt StarterIndex.get_mask_cap
  split <;> rfl

theorem init_global_cap (g : Nat) :
    (StarterIndex.init g).global_cap = min (max 1 g) 64 := rfl

theorem build_global_cap (dicts : List PyDict) (g : Nat) :
    (StarterIndex.build dicts g).global_cap = min (max 1 (min g 64)) 64 := by
  rw [build_eq_foldMark, foldMark_global_cap, init_global_cap]

/-- Membership in `marksOf`: exactly the non-empty keys of the slots. -/
theorem mem_marksOf (dicts : List PyDict) (p : Nat × Nat) :
    p ∈ marksOf dicts ↔
      ∃ d ∈ dicts, ∃ kv ∈ d, ∃ c, ∃ cs, kv.1.data = c :: cs ∧
        c.toNat = p.1 ∧ kv.1.length = p.2 := by
  unfold marksOf
  rw [List.mem_filterMap]
  constructor
  · rintro ⟨k, hk, hmk⟩
    rw [List.mem_flatMap] at hk
    rcases hk with ⟨d, hd, hkd⟩
    rw [List.mem_map] at hkd
    rcases hkd with ⟨kv, hkv, rfl⟩
    unfold markOfKey at hmk
    rcases hdata : kv.1.data with _ | ⟨c, cs⟩
    · rw [hdata] at hmk; cases hmk
    · rw [hdata] at hmk
      simp only [Option.some.injEq] at hmk
      exact ⟨d, hd, kv, hkv, c, cs, hdata, by rw [← hmk], by rw [← hmk]⟩
  · rintro ⟨d, hd, kv, hkv, c, cs, hdata, hc, hlen⟩
    refine ⟨kv.1, ?_, ?_⟩
    · rw [List.mem_flatMap]
      exact ⟨d, hd, List.mem_map.mpr ⟨kv, hkv, rfl⟩⟩
    · unfold markOfKey
      rw [hdata]
      show some (c.toNat, kv.1.length) = some p
      rw [hc, hlen]

/-- Bit characterisation of the built index. -/
theorem build_testBit (dicts : List PyDict) (g x i : Nat) :
    Nat.testBit ((StarterIndex.build dicts g).maskAt x) i = true ↔
      ∃ d ∈ dicts, ∃ kv ∈ d, ∃ c, ∃ cs, kv.1.data = c :: cs ∧
        c.toNat = x ∧ kv.1.length = i + 1 ∧
        kv.1.length ≤ min (max 1 (min g 64)) 64 := by
  rw [build_eq_foldMark, foldMark_testBit, init_maskAt, init_global_cap]
  simp only [Nat.zero_testBit, false_or, Bool.false_eq_true]
  constructor
  · rintro ⟨p, hp, h1, h2, h3⟩
    rcases (mem_marksOf dicts p).mp hp with ⟨d, hd, kv, hkv, c, cs, hdata, hc, hlen⟩
    exact ⟨d, hd, kv, hkv, c, cs, hdata, by rw [hc, h1], by rw [hlen, h2],
      by rw [hlen]; omega⟩
  · rintro ⟨d, hd, kv, hkv, c, cs, hdata, hc, hlen, hle⟩
    refine ⟨(c.toNat, kv.1.length), ?_, hc, hlen, hle⟩
    exact (mem_marksOf dicts _).mpr ⟨d, hd, kv, hkv, c, cs, hdata, rfl, rfl⟩

/-- Cap lower bound of the built index: every recorded key pushes the cap. -/
theorem build_capAt_ge (dicts : List PyDict) (g : Nat) (d : PyDict)
    (kv : String × String) (c : Char) (cs : List Char)
    (hd : d ∈ dicts) (hkv : kv ∈ d) (hdata : kv.1.data = c :: cs)
    (hle : kv.1.length ≤ min (max 1 (min g 64)) 64) :
    kv.1.length ≤ (StarterIndex.build dicts g).capAt c.toNat := by
  rw [build_eq_foldMark]
  refine foldMark_capAt_ge (marksOf dicts) (StarterIndex.init (min g 64))
    (c.toNat, kv.1.length) ?_ rfl ?_ ?_
  · exact (mem_marksOf dicts _).mpr ⟨d, hd, kv, hkv, c, cs, hdata, rfl, rfl⟩
  · show 1 ≤ kv.1.length
    have : kv.1.data.length = (c :: cs).length := by rw [hdata]
    simp only [List.length_cons] at this
    show 1 ≤ kv.1.data.length
    omega
  · rw [init_global_cap]; exact hle

/-- **C6, amended.**  `StarterIndex` does not clamp over-long keys: `_mark`
is a no-op whenever the length lies outside `[1, global_cap]`, so a key
longer than the cap is omitted from the index entirely; consequently the
builder never sets a bit at or above `global_cap` (that half of the claim
stands). -/
theorem C6_amended :
    (∀ (idx : StarterIndex) (cp L : Nat),
        ¬(1 ≤ L ∧ L ≤ idx.global_cap) → idx.mark cp L = idx) ∧
      (∀ (dicts : List PyDict) (g x i : Nat),
        (StarterIndex.build dicts g).global_cap ≤ i →
        Nat.testBit ((StarterIndex.build dicts g).maskAt x) i = false) := by
  constructor
  · intro idx cp L h
    unfold StarterIndex.mark
    rw [if_neg h]
  · intro dicts g x i h
    by_contra hbit
    rw [Bool.not_eq_false] at hbit
    rcases (build_testBit dicts g x i).mp hbit with
      ⟨d, hd, kv, hkv, c, cs, hdata, hc, hlen, hle⟩
    rw [build_global_cap] at h
    omega

/-- Witness for `C6_amended` at concrete inputs. -/
theorem C6_amended_witness :
    (StarterIndex.init 64).mark 97 0 = StarterIndex.init 64 ∧
      Nat.testBit ((StarterIndex.build [[("ab", "X")]] 1).maskAt 97) 5 = false :=
  ⟨C6_amended.1 (StarterIndex.init 64) 97 0 (by decide),
    C6_amended.2 [[("ab", "X")]] 1 97 5 (by decide)⟩

/-! ## Python `int.bit_length` -/

/-- Fuel-driven halving; `fuel ≥ m` always suffices. -/
def bitLengthAux : Nat → Nat → Nat
  | 0, _ => 0
  | fuel + 1, m => if m = 0 then 0 else bitLengthAux fuel (m / 2) + 1

/-- Python `m.bit_length()`: number of binary digits of `m`, `0` for `0`. -/
def bitLength (m : Nat) : Nat := bitLengthAux m m

theorem bitLengthAux_zero (f : Nat) : bitLengthAux f 0 = 0 := by
  cases f <;> rfl

theorem bitLengthAux_irrel :
    ∀ f1 f2 m : Nat, m ≤ f1 → m ≤ f2 → bitLengthAux f1 m = bitLengthAux f2 m := by
  intro f1
  induction f1 with
  | zero =>
      intro f2 m h1 _
      have : m = 0 := Nat.le_zero.mp h1
      subst this
      rw [bitLengthAux_zero, bitLengthAux_zero]
  | succ f ih =>
      intro f2 m h1 h2
      rcases m with _ | m'
      · rw [bitLengthAux_zero, bitLengthAux_zero]
      · rcases f2 with _ | f2'
        · omega
        · show (if m' + 1 = 0 then 0 else bitLengthAux f ((m' + 1) / 2) + 1) =
            (if m' + 1 = 0 then 0 else bitLengthAux f2' ((m' + 1) / 2) + 1)
          rw [if_neg (Nat.succ_ne_zero m'), if_neg (Nat.succ_ne_zero m')]
          rw [ih f2' ((m' + 1) / 2) (by omega) (by omega)]

theorem bitLength_succ_def (m : Nat) (h : m ≠ 0) :
    bitLength m = bitLength (m / 2) + 1 := by
  rcases m with _ | m'
  · exact absurd rfl h
  · show bitLengthAux (m' + 1) (m' + 1) = bitLength ((m' + 1) / 2) + 1
    show (if m' + 1 = 0 then 0 else bitLengthAux m' ((m' + 1) / 2) + 1) = _
    rw [if_neg (Nat.succ_ne_zero m')]
    unfold bitLength
    rw [bitLengthAux_irrel m' ((m' + 1) / 2) ((m' + 1) / 2) (by omega) (by omega)]

theorem bitLength_pos (m : Nat) (h : m ≠ 0) : 1 ≤ bitLength m := by
  rw [bitLength_succ_def m h]
  omega

theorem bitLength_bounds (m : Nat) (h : m ≠ 0) :
    2 ^ (bitLength m - 1) ≤ m ∧ m < 2 ^ bitLength m := by
  induction m using Nat.strong_induction_on with
  | _ m ih =>
      by_cases hhalf : m / 2 = 0
      · have hm1 : m = 1 := by omega
        subst hm1
        rw [bitLength_succ_def 1 h]
        have h0 : bitLength (1 / 2) = 0 := rfl
        rw [h0]
        decide
      · have hlt : m / 2 < m := Nat.div_lt_self (by omega) (by omega)
        have hb := ih (m / 2) hlt hhalf
        set b := bitLength (m / 2) with hbdef
        have hb1 : 1 ≤ b := bitLength_pos _ hhalf
        rw [bitLength_succ_def m h, ← hbdef]
        have hpow1 : 2 ^ b = 2 * 2 ^ (b - 1) := by
          conv_lhs => rw [show b = (b - 1) + 1 by omega]
          rw [Nat.pow_succ, Nat.mul_comm]
        have hpow2 : 2 ^ (b + 1) = 2 * 2 ^ b := by
          rw [Nat.pow_succ]
          omega
        rcases hb with ⟨hlo, hhi⟩
        constructor
        · show 2 ^ (b + 1 - 1) ≤ m
          have : b + 1 - 1 = b := by omega
          rw [this, hpow1]
          omega
        · rw [hpow2]
          omega

theorem bitLength_le_of_lt_two_pow (m c : Nat) (h : m < 2 ^ c) :
    bitLength m ≤ c := by
  by_cases hm : m = 0
  · subst hm
    show bitLengthAux 0 0 ≤ c
    rw [bitLengthAux_zero]
    omega
  · rcases bitLength_bounds m hm with ⟨hlo, _⟩
    have : 2 ^ (bitLength m - 1) < 2 ^ c := Nat.lt_of_le_of_lt hlo h
    have := (Nat.pow_lt_pow_iff_right (a := 2) (by omega)).mp this
    omega

theorem bitLength_eq_of_bounds (c m : Nat) (h1 : 2 ^ c ≤ m) (h2 : m < 2 ^ (c + 1)) :
    bitLength m = c + 1 := by
  have hm : m ≠ 0 := by
    have : 1 ≤ 2 ^ c := Nat.one_le_two_pow
    omega
  have hle : bitLength m ≤ c + 1 := bitLength_le_of_lt_two_pow m (c + 1) h2
  rcases bitLength_bounds m hm with ⟨_, hhi⟩
  have : 2 ^ c < 2 ^ bitLength m := Nat.lt_of_le_of_lt h1 hhi
  have := (Nat.pow_lt_pow_iff_right (a := 2) (by omega)).mp this
  omega

theorem bitLength_eq_of_testBit (c m : Nat) (hbit : Nat.testBit m c = true)
    (hlt : m < 2 ^ (c + 1)) : bitLength m = c + 1 :=
  bitLength_eq_of_bounds c m (Nat.testBit_implies_ge hbit) hlt

theorem lt_two_pow_of_not_testBit (c m : Nat) (hbit : Nat.testBit m c = false)
    (hlt : m < 2 ^ (c + 1)) : m < 2 ^ c := by
  by_contra hge
  have hge' : 2 ^ c ≤ m := by omega
  have hdiv : m / 2 ^ c = 1 := by
    have h1 : 1 ≤ m / 2 ^ c := (Nat.one_le_div_iff (Nat.pos_pow_of_pos c (by omega))).mpr hge'
    have h2 : m / 2 ^ c < 2 := by
      rw [Nat.div_lt_iff_lt_mul (Nat.pos_pow_of_pos c (by omega))]
      have hps : 2 ^ (c + 1) = 2 ^ c * 2 := Nat.pow_succ 2 c
      omega
    omega
  rw [Nat.testBit_to_div_mod, hdiv] at hbit
  simp at hbit

/-! ## The two scanners (`OpenCC.convert_segment`, `OpenCC.convert_segment_indexed`) -/

/-- The inner `for dict_data, max_len in dictionaries` probe of
`convert_segment`: skip slots whose declared `max_len` is below the probe
length, return the first remaining slot's hit. -/
def firstDictHit : List (PyDict × Nat) → String → Nat → Option String
  | [], _, _ => none
  | (dict_data, max_len) :: rest, word, length =>
      if max_len < length then firstDictHit rest word length
      else
        match dictGet dict_data word with
        | some m => some m
        | none => firstDictHit rest word length

/-- The outer `for length in range(min(max_word_length, remaining), 0, -1)`
loop of `convert_segment`, with its Python truthiness wrinkle kept: a hit
sets `best_match`/`best_length` and breaks the inner loop, but the outer
loop only breaks on `if best_match:` — an *empty-string* hit keeps
scanning shorter lengths (`best` carries the current `best_match,
best_length` pair).  When `length` reaches `0` the loop ends and the
carried best is returned (the final `if best_match is not None`). -/
def tryLengthsPy (dicts : List (PyDict × Nat)) (chars : List Char) :
    Nat → Option (String × Nat) → Option (String × Nat)
  | 0, best => best
  | l + 1, best =>
      match firstDictHit dicts (String.mk (chars.take (l + 1))) (l + 1) with
      | some v =>
          if v = "" then tryLengthsPy dicts chars l (some (v, l + 1))
          else some (v, l + 1)
      | none => tryLengthsPy dicts chars l best

/-- One scan position of `convert_segment`: the chosen
`(best_match, best_length)`, `none` when the character is copied as-is. -/
def legacyChoice (dicts : List (PyDict × Nat)) (max_word_length : Nat)
    (chars : List Char) : Option (String × Nat) :=
  tryLengthsPy dicts chars (min max_word_length chars.length) none

/-- The `while i < n` loop of `convert_segment` over the suffix at `i`;
one unit of fuel is one loop iteration, and `fuel = length of the suffix`
suffices because every iteration advances `i` by at least one (claim C10). -/
def convert_segment_loop (dicts : List (PyDict × Nat)) (max_word_length : Nat) :
    Nat → List Char → List Char
  | 0, _ => []
  | _, [] => []
  | fuel + 1, c :: rest =>
      match legacyChoice dicts max_word_length (c :: rest) with
      | some (v, len) =>
          v.data ++ convert_segment_loop dicts max_word_length fuel
            ((c :: rest).drop len)
      | none => c :: convert_segment_loop dicts max_word_length fuel rest

/-- Python `len(segment) == 1 and segment in DELIMITERS`. -/
def isSingleDelimiter (s : String) : Bool :=
  match s.data with
  | [c] => DELIMITERS.contains c
  | _ => false

/-- `OpenCC.convert_segment` (the legacy, non-indexed scanner). -/
def convert_segment (segment : String) (dictionaries : List (PyDict × Nat))
    (max_word_length : Nat) : String :=
  if segment.data = [] ∨ isSingleDelimiter segment then segment
  else String.mk
    (convert_segment_loop dictionaries max_word_length segment.data.length
      segment.data)

/-- The `while m:` walk of `convert_segment_indexed`, fuel-driven;
`fuel = bitLength m` suffices since clearing the top bit strictly lowers
the bit length.  `m &= (1 << (L-1)) - 1` is written `m % 2 ^ (L-1)`:
`L = m.bit_length()` is the position above the highest set bit, so masking
the low `L-1` bits equals reducing modulo `2 ^ (L-1)`. -/
def maskWalkF (merged_map : PyDict) (chars : List Char) :
    Nat → Nat → Option (String × Nat)
  | 0, _ => none
  | fuel + 1, m =>
      if m = 0 then none
      else
        match dictGet merged_map (String.mk (chars.take (bitLength m))) with
        | some repl => some (repl, bitLength m)
        | none => maskWalkF merged_map chars fuel (m % 2 ^ (bitLength m - 1))

/-- The `while m:` walk at its natural fuel. -/
def maskWalk (merged_map : PyDict) (chars : List Char) (m : Nat) :
    Option (String × Nat) :=
  maskWalkF merged_map chars (bitLength m) m

/-- One scan position of `convert_segment_indexed`: the `(mask, cap)`
lookup, the `mask == 0 or cap == 0` fast path, `cap_here`, the restriction
`m = mask & ((1 << cap_here) - 1)` (written `mask % 2 ^ cap_here`), then
the mask walk. -/
def indexedChoice (merged_map : PyDict) (starter_index : StarterIndex)
    (global_cap : Nat) : List Char → Option (String × Nat)
  | [] => none
  | c :: rest =>
      let mc := starter_index.get_mask_cap c.toNat
      if mc.1 = 0 ∨ mc.2 = 0 then none
      else
        maskWalk merged_map (c :: rest)
          (mc.1 % 2 ^ min (rest.length + 1) (min mc.2 global_cap))

/-- The `while i < n` loop of `convert_segment_indexed`. -/
def convert_segment_indexed_loop (merged_map : PyDict)
    (starter_index : StarterIndex) (global_cap : Nat) :
    Nat → List Char → List Char
  | 0, _ => []
  | _, [] => []
  | fuel + 1, c :: rest =>
      match indexedChoice merged_map starter_index global_cap (c :: rest) with
      | some (repl, L) =>
          repl.data ++ convert_segment_indexed_loop merged_map starter_index
            global_cap fuel ((c :: rest).drop L)
      | none =>
          c :: convert_segment_indexed_loop merged_map starter_index global_cap
            fuel rest

/-- `OpenCC.convert_segment_indexed` (the indexed scanner). -/
def convert_segment_indexed (segment : String) (merged_map : PyDict)
    (starter_index : StarterIndex) (global_cap : Nat) : String :=
  if segment.data = [] ∨ isSingleDelimiter segment then segment
  else String.mk
    (convert_segment_indexed_loop merged_map starter_index global_cap
      segment.data.length segment.data)

/-- `cap_from_dicts = max((maxlen for _, maxlen in dictionaries), default=0)`
in `OpenCC.segment_replace`. -/
def cap_from_dicts (dictionaries : List (PyDict × Nat)) : Nat :=
  dictionaries.foldl (fun a p => max a p.2) 0

/-- The `global_cap` computation of `OpenCC.segment_replace`:
`min(max_word_length, cap_from_dicts) if cap_from_dicts else
max_word_length`. -/
def global_cap_of (dictionaries : List (PyDict × Nat)) (max_word_length : Nat) :
    Nat :=
  if cap_from_dicts dictionaries ≠ 0 then
    min max_word_length (cap_from_dicts dictionaries)
  else max_word_length

/-! ## A reference longest-first probe -/

/-- Longest-first probe of a length-indexed lookup: try `n, n-1, …, 1` and
return the first hit together with its length. -/
def refTry (lookup : Nat → Option String) : Nat → Option (String × Nat)
  | 0 => none
  | l + 1 =>
      match lookup (l + 1) with
      | some v => some (v, l + 1)
      | none => refTry lookup l

theorem refTry_congr (f g : Nat → Option String) :
    ∀ n, (∀ l, 1 ≤ l → l ≤ n → f l = g l) → refTry f n = refTry g n := by
  intro n
  induction n with
  | zero => intro _; rfl
  | succ l ih =>
      intro h
      show (match f (l + 1) with
        | some v => some (v, l + 1)
        | none => refTry f l) = (match g (l + 1) with
        | some v => some (v, l + 1)
        | none => refTry g l)
      rw [h (l + 1) (by omega) (by omega)]
      rcases g (l + 1) with _ | v
      · exact ih (fun l2 h1 h2 => h l2 h1 (by omega))
      · rfl

theorem refTry_shrink (f : Nat → Option String) (a : Nat) :
    ∀ b, a ≤ b → (∀ l, a < l → l ≤ b → f l = none) →
      refTry f b = refTry f a := by
  intro b
  induction b with
  | zero =>
      intro hab _
      have : a = 0 := by omega
      rw [this]
  | succ b ih =>
      intro hab h
      by_cases hae : a = b + 1
      · rw [hae]
      · have hb : a ≤ b := by omega
        show (match f (b + 1) with
          | some v => some (v, b + 1)
          | none => refTry f b) = refTry f a
        rw [h (b + 1) (by omega) (by omega)]
        exact ih hb (fun l h1 h2 => h l h1 (by omega))

theorem refTry_none (f : Nat → Option String) (n : Nat)
    (h : ∀ l, 1 ≤ l → l ≤ n → f l = none) : refTry f n = none := by
  rw [refTry_shrink f 0 n (by omega) (fun l h1 h2 => h l (by omega) h2)]
  rfl

/-- What a successful probe guarantees: the hit is at the reported length,
and every longer length in range misses. -/
theorem refTry_spec (f : Nat → Option String) :
    ∀ n v L, refTry f n = some (v, L) →
      1 ≤ L ∧ L ≤ n ∧ f L = some v ∧
        ∀ l, L < l → l ≤ n → f l = none := by
  intro n
  induction n with
  | zero => intro v L h; cases h
  | succ l ih =>
      intro v L h
      rcases hf : f (l + 1) with _ | w
      · have hstep : refTry f (l + 1) = refTry f l := by
          show (match f (l + 1) with
            | some v => some (v, l + 1)
            | none => refTry f l) = refTry f l
          rw [hf]
        rw [hstep] at h
        rcases ih v L h with ⟨h1, h2, h3, h4⟩
        refine ⟨h1, by omega, h3, ?_⟩
        intro l2 hl2 hl2'
        by_cases he : l2 = l + 1
        · rw [he]; exact hf
        · exact h4 l2 hl2 (by omega)
      · have hstep : refTry f (l + 1) = some (w, l + 1) := by
          show (match f (l + 1) with
            | some v => some (v, l + 1)
            | none => refTry f l) = some (w, l + 1)
          rw [hf]
        rw [hstep] at h
        injection h with h'
        have h1 : w = v := congrArg Prod.fst h'
        have h2 : l + 1 = L := congrArg Prod.snd h'
        subst h1
        subst h2
        exact ⟨by omega, by omega, hf, fun l2 hl2 hl2' => by omega⟩

theorem maskWalkF_zero (merged : PyDict) (chars : List Char) (f : Nat) :
    maskWalkF merged chars f 0 = none := by
  cases f <;> rfl

theorem bitLength_eq_zero (m : Nat) (h : bitLength m = 0) : m = 0 := by
  by_contra hm
  have := bitLength_pos m hm
  omega

theorem maskWalkF_irrel (merged : PyDict) (chars : List Char) :
    ∀ f1 f2 m : Nat, bitLength m ≤ f1 → bitLength m ≤ f2 →
      maskWalkF merged chars f1 m = maskWalkF merged chars f2 m := by
  intro f1
  induction f1 with
  | zero =>
      intro f2 m h1 _
      have hm : m = 0 := bitLength_eq_zero m (by omega)
      rw [hm, maskWalkF_zero, maskWalkF_zero]
  | succ f ih =>
      intro f2 m h1 h2
      by_cases hm : m = 0
      · rw [hm, maskWalkF_zero, maskWalkF_zero]
      · have hbl : 1 ≤ bitLength m := bitLength_pos m hm
        rcases f2 with _ | f2'
        · omega
        · show (if m = 0 then none else
              match dictGet merged (String.mk (chars.take (bitLength m))) with
              | some repl => some (repl, bitLength m)
              | none => maskWalkF merged chars f (m % 2 ^ (bitLength m - 1))) =
            (if m = 0 then none else
              match dictGet merged (String.mk (chars.take (bitLength m))) with
              | some repl => some (repl, bitLength m)
              | none => maskWalkF merged chars f2' (m % 2 ^ (bitLength m - 1)))
          rw [if_neg hm, if_neg hm]
          rcases dictGet merged (String.mk (chars.take (bitLength m))) with _ | v
          · have hlt : m % 2 ^ (bitLength m - 1) < 2 ^ (bitLength m - 1) :=
              Nat.mod_lt m (Nat.pos_pow_of_pos _ (by omega))
            have hble : bitLength (m % 2 ^ (bitLength m - 1)) ≤ bitLength m - 1 :=
              bitLength_le_of_lt_two_pow _ _ hlt
            exact ih f2' _ (by omega) (by omega)
          · rfl

theorem maskWalkF_succ (merged : PyDict) (chars : List Char) (f m : Nat)
    (hm : m ≠ 0) :
    maskWalkF merged chars (f + 1) m =
      match dictGet merged (String.mk (chars.take (bitLength m))) with
      | some repl => some (repl, bitLength m)
      | none => maskWalkF merged chars f (m % 2 ^ (bitLength m - 1)) := by
  show (if m = 0 then none else _) = _
  rw [if_neg hm]

/-- The mask walk is exactly the longest-first probe over the lengths up to
`cap`, provided every length whose bit is clear misses in the map. -/
theorem maskWalk_eq_refTry (merged : PyDict) (chars : List Char) :
    ∀ (cap m : Nat), m < 2 ^ cap →
      (∀ l, 1 ≤ l → l ≤ cap → Nat.testBit m (l - 1) = false →
        dictGet merged (String.mk (chars.take l)) = none) →
      maskWalk merged chars m =
        refTry (fun l => dictGet merged (String.mk (chars.take l))) cap := by
  intro cap
  induction cap with
  | zero =>
      intro m hlt _
      have hm : m = 0 := by omega
      rw [hm]
      show maskWalkF merged chars (bitLength 0) 0 = none
      rw [maskWalkF_zero]
  | succ c ih =>
      intro m hlt hmiss
      by_cases hm : m = 0
      · subst hm
        show maskWalkF merged chars (bitLength 0) 0 = _
        rw [maskWalkF_zero]
        refine (refTry_none _ _ ?_).symm
        intro l h1 h2
        exact hmiss l h1 h2 (by simp)
      · by_cases hbit : Nat.testBit m c = true
        · have hbl : bitLength m = c + 1 := bitLength_eq_of_testBit c m hbit hlt
          unfold maskWalk
          rw [hbl, maskWalkF_succ merged chars c m hm]
          rcases hhit : dictGet merged (String.mk (chars.take (bitLength m)))
            with _ | v
          · have hltm : m % 2 ^ c < 2 ^ c :=
              Nat.mod_lt m (Nat.pos_pow_of_pos _ (by omega))
            have hc1 : bitLength m - 1 = c := by omega
            have hwrap : maskWalkF merged chars c (m % 2 ^ (bitLength m - 1)) =
                maskWalk merged chars (m % 2 ^ c) := by
              rw [hc1]
              unfold maskWalk
              exact maskWalkF_irrel merged chars c _ _
                (bitLength_le_of_lt_two_pow _ _ hltm) (Nat.le_refl _)
            show maskWalkF merged chars c (m % 2 ^ (bitLength m - 1)) = _
            rw [hwrap]
            have hrhs : refTry (fun l => dictGet merged (String.mk (chars.take l)))
                (c + 1) =
                refTry (fun l => dictGet merged (String.mk (chars.take l))) c := by
              show (match dictGet merged (String.mk (chars.take (c + 1))) with
                | some v => some (v, c + 1)
                | none => refTry _ c) = _
              rw [hbl] at hhit
              rw [hhit]
            rw [hrhs]
            refine ih (m % 2 ^ c) hltm ?_
            intro l h1 h2 hb
            have hb2 : Nat.testBit m (l - 1) = false := by
              have hmod := Nat.testBit_mod_two_pow m c (l - 1)
              rw [hb] at hmod
              have hlc : l - 1 < c := by omega
              simp [hlc] at hmod
              exact hmod
            exact hmiss l h1 (by omega) hb2
          · show some (v, bitLength m) = _
            rw [hbl]
            show _ = (match dictGet merged (String.mk (chars.take (c + 1))) with
              | some w => some (w, c + 1)
              | none => refTry _ c)
            rw [hbl] at hhit
            rw [hhit]
        · have hbit' : Nat.testBit m c = false := by
            simpa using hbit
          have hltc : m < 2 ^ c := lt_two_pow_of_not_testBit c m hbit' hlt
          have hrhs : refTry (fun l => dictGet merged (String.mk (chars.take l)))
              (c + 1) = refTry (fun l => dictGet merged (String.mk (chars.take l))) c := by
            show (match dictGet merged (String.mk (chars.take (c + 1))) with
              | some v => some (v, c + 1)
              | none => refTry _ c) = _
            rw [hmiss (c + 1) (by omega) (by omega) (by simpa using hbit')]
          rw [hrhs]
          refine ih m hltc ?_
          intro l h1 h2 hb
          exact hmiss l h1 (by omega) hb

/-! ## Legacy probe vs merged map -/

theorem dictGet_mem (l : PyDict) (k v : String) :
    dictGet l k = some v → (k, v) ∈ l := by
  induction l with
  | nil => intro h; cases h
  | cons hd tl ih =>
      obtain ⟨k0, v0⟩ := hd
      intro h
      by_cases hk : k0 = k
      · subst hk
        rw [dictGet, if_pos rfl] at h
        injection h with h'
        subst h'
        exact List.mem_cons_self _ _
      · rw [dictGet, if_neg hk] at h
        exact List.mem_cons_of_mem _ (ih h)

theorem dictGet_isSome_of_mem (l : PyDict) (k v : String) :
    (k, v) ∈ l → (dictGet l k).isSome := by
  induction l with
  | nil => intro h; cases h
  | cons hd tl ih =>
      obtain ⟨k0, v0⟩ := hd
      intro h
      by_cases hk : k0 = k
      · rw [dictGet, if_pos hk]; rfl
      · rw [dictGet, if_neg hk]
        rcases List.mem_cons.mp h with he | hm
        · injection he with he1 he2
          exact absurd he1.symm hk
        · exact ih hm

theorem dictGet_none_of_not_mem (l : PyDict) (k : String)
    (h : ∀ v, (k, v) ∉ l) : dictGet l k = none := by
  rcases hg : dictGet l k with _ | v
  · rfl
  · exact absurd (dictGet_mem l k v hg) (h v)

theorem dictGet_reverse_of_nodup (l : PyDict) (h : (l.map Prod.fst).Nodup)
    (k : String) : dictGet l.reverse k = dictGet l k := by
  induction l with
  | nil => rfl
  | cons hd tl ih =>
      obtain ⟨k0, v0⟩ := hd
      rw [List.map_cons, List.nodup_cons] at h
      rcases h with ⟨hk0, htl⟩
      rw [List.reverse_cons, dictGet_append]
      by_cases hk : k0 = k
      · subst hk
        have hnone : dictGet tl.reverse k0 = none := by
          refine dictGet_none_of_not_mem _ _ ?_
          intro v hv
          exact hk0 (List.mem_map.mpr ⟨(k0, v), List.mem_reverse.mp hv, rfl⟩)
        rw [hnone]
        show dictGet [(k0, v0)] k0 = dictGet ((k0, v0) :: tl) k0
        simp [dictGet]
      · have hrhs : dictGet ((k0, v0) :: tl) k = dictGet tl k := by
          rw [dictGet, if_neg hk]
        rw [hrhs, ← ih htl]
        rcases dictGet tl.reverse k with _ | v
        · show dictGet [(k0, v0)] k = none
          rw [dictGet, if_neg hk]
          rfl
        · rfl

theorem firstDictHit_some (dicts : List (PyDict × Nat)) (word : String)
    (len : Nat) (v : String) :
    firstDictHit dicts word len = some v →
      ∃ p ∈ dicts, len ≤ p.2 ∧ dictGet p.1 word = some v := by
  induction dicts with
  | nil => intro h; cases h
  | cons p rest ih =>
      obtain ⟨dict_data, max_len⟩ := p
      intro h
      rw [firstDictHit] at h
      by_cases hskip : max_len < len
      · rw [if_pos hskip] at h
        rcases ih h with ⟨q, hq, h1, h2⟩
        exact ⟨q, List.mem_cons_of_mem _ hq, h1, h2⟩
      · rw [if_neg hskip] at h
        rcases hg : dictGet dict_data word with _ | w
        · rw [hg] at h
          rcases ih h with ⟨q, hq, h1, h2⟩
          exact ⟨q, List.mem_cons_of_mem _ hq, h1, h2⟩
        · rw [hg] at h
          injection h with h'
          subst h'
          exact ⟨(dict_data, max_len), List.mem_cons_self _ _, by omega, hg⟩

theorem firstDictHit_isSome (dicts : List (PyDict × Nat)) (word : String)
    (len : Nat) (p : PyDict × Nat) (hp : p ∈ dicts) (hlen : len ≤ p.2)
    (hsome : (dictGet p.1 word).isSome) :
    (firstDictHit dicts word len).isSome := by
  induction dicts with
  | nil => cases hp
  | cons q rest ih =>
      obtain ⟨dict_data, max_len⟩ := q
      rw [firstDictHit]
      rcases List.mem_cons.mp hp with rfl | hp'
      · rw [if_neg (by simp at hlen ⊢; omega)]
        rcases hg : dictGet dict_data word with _ | w
        · rw [hg] at hsome; cases hsome
        · rfl
      · by_cases hskip : max_len < len
        · rw [if_pos hskip]
          exact ih hp'
        · rw [if_neg hskip]
          rcases hg : dictGet dict_data word with _ | w
          · exact ih hp'
          · rfl

theorem lastSlotGet_some (dicts : List PyDict) (k v : String) :
    lastSlotGet dicts k = some v → ∃ d ∈ dicts, dictGet d.reverse k = some v := by
  suffices h : ∀ acc : Option String,
      dicts.foldl
        (fun acc d =>
          match dictGet d.reverse k with
          | some v => some v
          | none => acc) acc = some v →
      acc = some v ∨ ∃ d ∈ dicts, dictGet d.reverse k = some v by
    intro hl
    rcases h none hl with hc | hc
    · cases hc
    · exact hc
  induction dicts with
  | nil => intro acc h; exact Or.inl h
  | cons d rest ih =>
      intro acc h
      rw [List.foldl_cons] at h
      rcases hg : dictGet d.reverse k with _ | w
      · rw [hg] at h
        rcases ih _ h with hc | ⟨e, he, hee⟩
        · exact Or.inl hc
        · exact Or.inr ⟨e, List.mem_cons_of_mem _ he, hee⟩
      · rw [hg] at h
        rcases ih _ h with hc | ⟨e, he, hee⟩
        · injection hc with hc'
          subst hc'
          exact Or.inr ⟨d, List.mem_cons_self _ _, hg⟩
        · exact Or.inr ⟨e, List.mem_cons_of_mem _ he, hee⟩

theorem lastSlotGet_isSome (dicts : List PyDict) (k : String) (d : PyDict)
    (hd : d ∈ dicts) (hsome : (dictGet d.reverse k).isSome) :
    (lastSlotGet dicts k).isSome := by
  suffices h : ∀ acc : Option String,
      (acc.isSome ∨ ∃ e ∈ dicts, (dictGet e.reverse k).isSome) →
      (dicts.foldl
        (fun acc d =>
          match dictGet d.reverse k with
          | some v => some v
          | none => acc) acc).isSome by
    exact h none (Or.inr ⟨d, hd, hsome⟩)
  clear hd hsome d
  induction dicts with
  | nil =>
      intro acc h
      rcases h with h | ⟨e, he, _⟩
      · exact h
      · cases he
  | cons d rest ih =>
      intro acc h
      rw [List.foldl_cons]
      rcases hg : dictGet d.reverse k with _ | w
      · refine ih _ ?_
        rcases h with h | ⟨e, he, hee⟩
        · exact Or.inl h
        · rcases List.mem_cons.mp he with rfl | he'
          · rw [hg] at hee; cases hee
          · exact Or.inr ⟨e, he', hee⟩
      · refine ih _ ?_
        exact Or.inl rfl

theorem firstDictHit_eq_merged (dicts : List (PyDict × Nat)) (word : String)
    (H0 : ∀ p ∈ dicts, (p.1.map Prod.fst).Nodup)
    (H1 : ∀ p ∈ dicts, ∀ kv ∈ p.1, kv.1.length ≤ p.2)
    (H3 : ∀ p ∈ dicts, ∀ q ∈ dicts, ∀ kv ∈ p.1, ∀ kw ∈ q.1,
      kv.1 = kw.1 → kv.2 = kw.2) :
    firstDictHit dicts word word.length =
      dictGet (merge_in_precedence (dicts.map Prod.fst)) word := by
  rw [dictGet_merge]
  rcases hfd : firstDictHit dicts word word.length with _ | v
  · rcases hls : lastSlotGet (dicts.map Prod.fst) word with _ | w
    · rfl
    · exfalso
      rcases lastSlotGet_some _ _ _ hls with ⟨d, hd, hdg⟩
      rcases List.mem_map.mp hd with ⟨p, hp, rfl⟩
      have hget : dictGet p.1 word = some w := by
        rw [← dictGet_reverse_of_nodup p.1 (H0 p hp)]
        exact hdg
      have hlen : word.length ≤ p.2 := H1 p hp (word, w) (dictGet_mem _ _ _ hget)
      have hs := firstDictHit_isSome dicts word word.length p hp hlen
        (by rw [hget]; rfl)
      rw [hfd] at hs
      cases hs
  · rcases hls : lastSlotGet (dicts.map Prod.fst) word with _ | w
    · exfalso
      rcases firstDictHit_some dicts word word.length v hfd with ⟨p, hp, hlen, hget⟩
      have hrev : (dictGet p.1.reverse word).isSome := by
        rw [dictGet_reverse_of_nodup p.1 (H0 p hp), hget]
        rfl
      have hs := lastSlotGet_isSome (dicts.map Prod.fst) word p.1
        (List.mem_map.mpr ⟨p, hp, rfl⟩) hrev
      rw [hls] at hs
      cases hs
    · rcases firstDictHit_some dicts word word.length v hfd with ⟨p, hp, hlen, hget⟩
      rcases lastSlotGet_some _ _ _ hls with ⟨d, hd, hdg⟩
      rcases List.mem_map.mp hd with ⟨q, hq, rfl⟩
      have hgetq : dictGet q.1 word = some w := by
        rw [← dictGet_reverse_of_nodup q.1 (H0 q hq)]
        exact hdg
      have hvw := H3 p hp q hq (word, v) (dictGet_mem _ _ _ hget)
        (word, w) (dictGet_mem _ _ _ hgetq) rfl
      exact congrArg some hvw

theorem tryLengthsPy_eq_refTry (dicts : List (PyDict × Nat)) (chars : List Char)
    (hne : ∀ l v, firstDictHit dicts (String.mk (chars.take l)) l = some v →
      v ≠ "") :
    ∀ n, tryLengthsPy dicts chars n none =
      refTry (fun l => firstDictHit dicts (String.mk (chars.take l)) l) n := by
  intro n
  induction n with
  | zero => rfl
  | succ l ih =>
      rcases hh : firstDictHit dicts (String.mk (chars.take (l + 1))) (l + 1)
        with _ | v
      · show (match firstDictHit dicts (String.mk (chars.take (l + 1))) (l + 1) with
          | some v =>
              if v = "" then tryLengthsPy dicts chars l (some (v, l + 1))
              else some (v, l + 1)
          | none => tryLengthsPy dicts chars l none) = _
        rw [hh]
        show tryLengthsPy dicts chars l none = _
        rw [ih]
        show _ = (match firstDictHit dicts (String.mk (chars.take (l + 1))) (l + 1) with
          | some v => some (v, l + 1)
          | none => refTry _ l)
        rw [hh]
      · show (match firstDictHit dicts (String.mk (chars.take (l + 1))) (l + 1) with
          | some v =>
              if v = "" then tryLengthsPy dicts chars l (some (v, l + 1))
              else some (v, l + 1)
          | none => tryLengthsPy dicts chars l none) = _
        rw [hh]
        show (if v = "" then tryLengthsPy dicts chars l (some (v, l + 1))
          else some (v, l + 1)) = _
        rw [if_neg (hne (l + 1) v hh)]
        show _ = (match firstDictHit dicts (String.mk (chars.take (l + 1))) (l + 1) with
          | some v => some (v, l + 1)
          | none => refTry _ l)
        rw [hh]

theorem legacyChoice_eq_refTry_merged (dicts : List (PyDict × Nat))
    (max_word_length : Nat) (chars : List Char)
    (H0 : ∀ p ∈ dicts, (p.1.map Prod.fst).Nodup)
    (H1 : ∀ p ∈ dicts, ∀ kv ∈ p.1, kv.1.length ≤ p.2)
    (H3 : ∀ p ∈ dicts, ∀ q ∈ dicts, ∀ kv ∈ p.1, ∀ kw ∈ q.1,
      kv.1 = kw.1 → kv.2 = kw.2)
    (H4 : ∀ p ∈ dicts, ∀ kv ∈ p.1, kv.2 ≠ "") :
    legacyChoice dicts max_word_length chars =
      refTry
        (fun l => dictGet (merge_in_precedence (dicts.map Prod.fst))
          (String.mk (chars.take l)))
        (min max_word_length chars.length) := by
  unfold legacyChoice
  have hne : ∀ l v, firstDictHit dicts (String.mk (chars.take l)) l = some v →
      v ≠ "" := by
    intro l v hh
    rcases firstDictHit_some dicts _ l v hh with ⟨p, hp, _, hget⟩
    exact H4 p hp (String.mk (chars.take l), v) (dictGet_mem _ _ _ hget)
  rw [tryLengthsPy_eq_refTry dicts chars hne (min max_word_length chars.length)]
  refine refTry_congr _ _ _ ?_
  intro l h1 h2
  have hlen : (String.mk (chars.take l)).length = l := by
    show (chars.take l).length = l
    rw [List.length_take]
    omega
  have hfm := firstDictHit_eq_merged dicts (String.mk (chars.take l)) H0 H1 H3
  rw [hlen] at hfm
  exact hfm

theorem foldl_max_init_le (l : List (PyDict × Nat)) :
    ∀ a : Nat, a ≤ l.foldl (fun a p => max a p.2) a := by
  induction l with
  | nil => intro a; exact Nat.le_refl _
  | cons p rest ih =>
      intro a
      rw [List.foldl_cons]
      exact Nat.le_trans (Nat.le_max_left a p.2) (ih _)

theorem le_cap_from_dicts (dicts : List (PyDict × Nat)) (p : PyDict × Nat)
    (hp : p ∈ dicts) : p.2 ≤ cap_from_dicts dicts := by
  unfold cap_from_dicts
  generalize (0 : Nat) = a
  induction dicts generalizing a with
  | nil => cases hp
  | cons q rest ih =>
      rw [List.foldl_cons]
      rcases List.mem_cons.mp hp with rfl | hp'
      · exact Nat.le_trans (Nat.le_max_right a p.2) (foldl_max_init_le rest _)
      · exact ih hp' _

theorem global_cap_of_le (dicts : List (PyDict × Nat)) (max_word_length : Nat) :
    global_cap_of dicts max_word_length ≤ max_word_length := by
  unfold global_cap_of
  split
  · exact Nat.min_le_left _ _
  · exact Nat.le_refl _

/-- Every key of the merged map comes from one of the slots. -/
theorem merged_entry (dicts : List (PyDict × Nat)) (w v : String)
    (h : dictGet (merge_in_precedence (dicts.map Prod.fst)) w = some v) :
    ∃ p ∈ dicts, (w, v) ∈ p.1 := by
  rw [dictGet_merge] at h
  rcases lastSlotGet_some _ _ _ h with ⟨d, hd, hdg⟩
  rcases List.mem_map.mp hd with ⟨p, hp, rfl⟩
  exact ⟨p, hp, List.mem_reverse.mp (dictGet_mem _ _ _ hdg)⟩

/-- A merged-map hit at a feasible length forces the built index to carry
the bit, the per-starter cap, and the global-cap bound for that length. -/
theorem merged_key_bit (dicts : List (PyDict × Nat)) (max_word_length : Nat)
    (c : Char) (rest : List Char) (l : Nat)
    (H1 : ∀ p ∈ dicts, ∀ kv ∈ p.1, kv.1.length ≤ p.2)
    (H2 : ∀ p ∈ dicts, ∀ kv ∈ p.1, kv.1.length ≤ 64)
    (hl1 : 1 ≤ l) (hlr : l ≤ rest.length + 1) (hlm : l ≤ max_word_length)
    (hsome : (dictGet (merge_in_precedence (dicts.map Prod.fst))
      (String.mk ((c :: rest).take l))).isSome) :
    Nat.testBit
        ((StarterIndex.build (dicts.map Prod.fst)
          (global_cap_of dicts max_word_length)).maskAt c.toNat) (l - 1) = true ∧
      l ≤ (StarterIndex.build (dicts.map Prod.fst)
          (global_cap_of dicts max_word_length)).capAt c.toNat ∧
      l ≤ global_cap_of dicts max_word_length := by
  rcases hg : dictGet (merge_in_precedence (dicts.map Prod.fst))
      (String.mk ((c :: rest).take l)) with _ | v
  · rw [hg] at hsome; cases hsome
  · have hwdata : (String.mk ((c :: rest).take l)).data =
        c :: rest.take (l - 1) := by
      show (c :: rest).take l = c :: rest.take (l - 1)
      rcases l with _ | l'
      · omega
      · rw [List.take_succ_cons, Nat.add_sub_cancel]
    have hwlen : (String.mk ((c :: rest).take l)).length = l := by
      show ((c :: rest).take l).length = l
      rw [List.length_take]
      simp only [List.length_cons]
      omega
    rcases merged_entry dicts _ v hg with ⟨p, hp, hwp⟩
    have hle64 : l ≤ 64 := by
      have h := H2 p hp (String.mk ((c :: rest).take l), v) hwp
      rw [show (String.mk ((c :: rest).take l), v).1.length =
        (String.mk ((c :: rest).take l)).length from rfl, hwlen] at h
      exact h
    have hlecap : l ≤ cap_from_dicts dicts := by
      have h := H1 p hp (String.mk ((c :: rest).take l), v) hwp
      rw [show (String.mk ((c :: rest).take l), v).1.length =
        (String.mk ((c :: rest).take l)).length from rfl, hwlen] at h
      exact Nat.le_trans h (le_cap_from_dicts dicts p hp)
    have hleg : l ≤ global_cap_of dicts max_word_length := by
      unfold global_cap_of
      split
      · exact Nat.le_min.mpr ⟨hlm, hlecap⟩
      · exact hlm
    have hclamp : l ≤
        min (max 1 (min (global_cap_of dicts max_word_length) 64)) 64 := by
      have hA : l ≤ min (global_cap_of dicts max_word_length) 64 :=
        Nat.le_min.mpr ⟨hleg, hle64⟩
      have hB : l ≤ max 1 (min (global_cap_of dicts max_word_length) 64) :=
        Nat.le_trans hA (Nat.le_max_right _ _)
      exact Nat.le_min.mpr ⟨hB, hle64⟩
    have hclamp' : (String.mk ((c :: rest).take l)).length ≤
        min (max 1 (min (global_cap_of dicts max_word_length) 64)) 64 := by
      rw [hwlen]; exact hclamp
    refine ⟨?_, ?_, hleg⟩
    · refine (build_testBit (dicts.map Prod.fst)
        (global_cap_of dicts max_word_length) c.toNat (l - 1)).mpr ?_
      exact ⟨p.1, List.mem_map.mpr ⟨p, hp, rfl⟩,
        (String.mk ((c :: rest).take l), v), hwp, c, rest.take (l - 1),
        hwdata, rfl, by rw [hwlen]; omega, hclamp'⟩
    · have hcap := build_capAt_ge (dicts.map Prod.fst)
        (global_cap_of dicts max_word_length) p.1
        (String.mk ((c :: rest).take l), v) c (rest.take (l - 1))
        (List.mem_map.mpr ⟨p, hp, rfl⟩) hwp hwdata hclamp'
      rw [show (String.mk ((c :: rest).take l), v).1.length =
        (String.mk ((c :: rest).take l)).length from rfl, hwlen] at hcap
      exact hcap

/-- The indexed per-position choice is the longest-first probe of the merged
map over all lengths up to `min(max_word_length, remaining)`. -/
theorem indexedChoice_eq_refTry (dicts : List (PyDict × Nat))
    (max_word_length : Nat) (c : Char) (rest : List Char)
    (H1 : ∀ p ∈ dicts, ∀ kv ∈ p.1, kv.1.length ≤ p.2)
    (H2 : ∀ p ∈ dicts, ∀ kv ∈ p.1, kv.1.length ≤ 64) :
    indexedChoice (merge_in_precedence (dicts.map Prod.fst))
      (StarterIndex.build (dicts.map Prod.fst)
        (global_cap_of dicts max_word_length))
      (global_cap_of dicts max_word_length) (c :: rest) =
    refTry
      (fun l => dictGet (merge_in_precedence (dicts.map Prod.fst))
        (String.mk ((c :: rest).take l)))
      (min max_word_length (rest.length + 1)) := by
  have hmiss_of_nobit : ∀ l, 1 ≤ l → l ≤ rest.length + 1 →
      l ≤ max_word_length →
      Nat.testBit ((StarterIndex.build (dicts.map Prod.fst)
        (global_cap_of dicts max_word_length)).maskAt c.toNat) (l - 1) = false →
      dictGet (merge_in_precedence (dicts.map Prod.fst))
        (String.mk ((c :: rest).take l)) = none := by
    intro l h1 h2 h3 hbit
    rcases hgl : dictGet (merge_in_precedence (dicts.map Prod.fst))
      (String.mk ((c :: rest).take l)) with _ | v
    · rfl
    · exfalso
      have hs := merged_key_bit dicts max_word_length c rest l H1 H2 h1 h2 h3
        (by rw [hgl]; rfl)
      rw [hs.1] at hbit
      cases hbit
  have hbit_to_cap : ∀ l, 1 ≤ l →
      Nat.testBit ((StarterIndex.build (dicts.map Prod.fst)
        (global_cap_of dicts max_word_length)).maskAt c.toNat) (l - 1) = true →
      l ≤ (StarterIndex.build (dicts.map Prod.fst)
        (global_cap_of dicts max_word_length)).capAt c.toNat := by
    intro l h1 hbit
    rcases (build_testBit (dicts.map Prod.fst)
      (global_cap_of dicts max_word_length) c.toNat (l - 1)).mp hbit with
      ⟨d, hd, kv, hkv, c2, cs2, hdata, hc2, hlen2, hle2⟩
    have hcap := build_capAt_ge (dicts.map Prod.fst)
      (global_cap_of dicts max_word_length) d kv c2 cs2 hd hkv hdata hle2
    rw [hc2] at hcap
    rw [hlen2] at hcap
    omega
  show (if ((StarterIndex.build (dicts.map Prod.fst)
        (global_cap_of dicts max_word_length)).get_mask_cap c.toNat).1 = 0 ∨
      ((StarterIndex.build (dicts.map Prod.fst)
        (global_cap_of dicts max_word_length)).get_mask_cap c.toNat).2 = 0
      then none
      else maskWalk (merge_in_precedence (dicts.map Prod.fst)) (c :: rest)
        (((StarterIndex.build (dicts.map Prod.fst)
          (global_cap_of dicts max_word_length)).get_mask_cap c.toNat).1 %
          2 ^ min (rest.length + 1)
            (min ((StarterIndex.build (dicts.map Prod.fst)
              (global_cap_of dicts max_word_length)).get_mask_cap c.toNat).2
              (global_cap_of dicts max_word_length)))) = _
  by_cases hz : ((StarterIndex.build (dicts.map Prod.fst)
      (global_cap_of dicts max_word_length)).get_mask_cap c.toNat).1 = 0 ∨
      ((StarterIndex.build (dicts.map Prod.fst)
        (global_cap_of dicts max_word_length)).get_mask_cap c.toNat).2 = 0
  · rw [if_pos hz]
    refine (refTry_none _ _ ?_).symm
    intro l h1 h2
    refine hmiss_of_nobit l h1 (by omega) (by omega) ?_
    rcases hbit : Nat.testBit ((StarterIndex.build (dicts.map Prod.fst)
      (global_cap_of dicts max_word_length)).maskAt c.toNat) (l - 1) with _ | _
    · rfl
    · exfalso
      rcases hz with hz | hz
      · have hge := Nat.testBit_implies_ge hbit
        have hz2 : (StarterIndex.build (dicts.map Prod.fst)
            (global_cap_of dicts max_word_length)).maskAt c.toNat = 0 := hz
        rw [hz2] at hge
        have hpos : 1 ≤ 2 ^ (l - 1) := Nat.one_le_two_pow
        omega
      · have hcap := hbit_to_cap l h1 hbit
        have hz2 : (StarterIndex.build (dicts.map Prod.fst)
            (global_cap_of dicts max_word_length)).capAt c.toNat = 0 := hz
        omega
  · rw [if_neg hz]
    have hg_le_mwl : global_cap_of dicts max_word_length ≤ max_word_length :=
      global_cap_of_le dicts max_word_length
    have hmiss2 : ∀ l, 1 ≤ l →
        l ≤ min (rest.length + 1)
          (min ((StarterIndex.build (dicts.map Prod.fst)
            (global_cap_of dicts max_word_length)).get_mask_cap c.toNat).2
            (global_cap_of dicts max_word_length)) →
        Nat.testBit (((StarterIndex.build (dicts.map Prod.fst)
          (global_cap_of dicts max_word_length)).get_mask_cap c.toNat).1 %
          2 ^ min (rest.length + 1)
            (min ((StarterIndex.build (dicts.map Prod.fst)
              (global_cap_of dicts max_word_length)).get_mask_cap c.toNat).2
              (global_cap_of dicts max_word_length))) (l - 1) = false →
        dictGet (merge_in_precedence (dicts.map Prod.fst))
          (String.mk ((c :: rest).take l)) = none := by
      intro l h1 h2 hbit
      refine hmiss_of_nobit l h1 (by omega) (by omega) ?_
      have hmod := Nat.testBit_mod_two_pow
        (((StarterIndex.build (dicts.map Prod.fst)
          (global_cap_of dicts max_word_length)).get_mask_cap c.toNat).1)
        (min (rest.length + 1)
          (min ((StarterIndex.build (dicts.map Prod.fst)
            (global_cap_of dicts max_word_length)).get_mask_cap c.toNat).2
            (global_cap_of dicts max_word_length)))
        (l - 1)
      rw [hbit] at hmod
      have hlc : l - 1 < min (rest.length + 1)
          (min ((StarterIndex.build (dicts.map Prod.fst)
            (global_cap_of dicts max_word_length)).get_mask_cap c.toNat).2
            (global_cap_of dicts max_word_length)) := by omega
      simp [hlc] at hmod
      exact hmod
    have hwalk := maskWalk_eq_refTry (merge_in_precedence (dicts.map Prod.fst))
      (c :: rest)
      (min (rest.length + 1)
        (min ((StarterIndex.build (dicts.map Prod.fst)
          (global_cap_of dicts max_word_length)).get_mask_cap c.toNat).2
          (global_cap_of dicts max_word_length)))
      _
      (Nat.mod_lt _ (Nat.pos_pow_of_pos _ (by omega)))
      hmiss2
    rw [hwalk]
    refine (refTry_shrink _
      (min (rest.length + 1)
        (min ((StarterIndex.build (dicts.map Prod.fst)
          (global_cap_of dicts max_word_length)).get_mask_cap c.toNat).2
          (global_cap_of dicts max_word_length)))
      (min max_word_length (rest.length + 1)) (by omega) ?_).symm
    intro l hgt hle
    rcases hgl : dictGet (merge_in_precedence (dicts.map Prod.fst))
      (String.mk ((c :: rest).take l)) with _ | v
    · rfl
    · exfalso
      have hs := merged_key_bit dicts max_word_length c rest l H1 H2
        (by omega) (by omega) (by omega) (by rw [hgl]; rfl)
      have hcap2 : l ≤ ((StarterIndex.build (dicts.map Prod.fst)
          (global_cap_of dicts max_word_length)).get_mask_cap c.toNat).2 :=
        hs.2.1
      have hg2 : l ≤ global_cap_of dicts max_word_length := hs.2.2
      omega

/-- When the per-position choices agree, the two scan loops agree at every
fuel. -/
theorem loops_eq (dicts : List (PyDict × Nat)) (max_word_length : Nat)
    (merged_map : PyDict) (starter_index : StarterIndex) (global_cap : Nat)
    (hchoice : ∀ (c : Char) (rest : List Char),
      legacyChoice dicts max_word_length (c :: rest) =
        indexedChoice merged_map starter_index global_cap (c :: rest)) :
    ∀ (fuel : Nat) (cs : List Char),
      convert_segment_loop dicts max_word_length fuel cs =
        convert_segment_indexed_loop merged_map starter_index global_cap fuel cs := by
  intro fuel
  induction fuel with
  | zero => intro cs; cases cs <;> rfl
  | succ f ih =>
      intro cs
      rcases cs with _ | ⟨c, rest⟩
      · rfl
      · show (match legacyChoice dicts max_word_length (c :: rest) with
          | some (v, len) =>
              v.data ++ convert_segment_loop dicts max_word_length f
                ((c :: rest).drop len)
          | none => c :: convert_segment_loop dicts max_word_length f rest) =
          (match indexedChoice merged_map starter_index global_cap (c :: rest) with
          | some (repl, L) =>
              repl.data ++ convert_segment_indexed_loop merged_map starter_index
                global_cap f ((c :: rest).drop L)
          | none =>
              c :: convert_segment_indexed_loop merged_map starter_index
                global_cap f rest)
        rw [hchoice c rest]
        rcases indexedChoice merged_map starter_index global_cap (c :: rest)
          with _ | ⟨v, len⟩
        · show c :: convert_segment_loop dicts max_word_length f rest = _
          rw [ih rest]
        · show v.data ++ convert_segment_loop dicts max_word_length f
              ((c :: rest).drop len) = _
          rw [ih ((c :: rest).drop len)]

/-- **C2, counterexample.**  Two slots of one round bind the key `"a"` to
different values.  The legacy scanner takes the earliest slot (`"x"`), but
the indexed scanner over the merged map and starter index built from the
same slots and cap emits the latest slot's value (`"y"`): the two scanners
are not equivalent for every list of dictionary slots. -/
theorem C2_counterexample :
    convert_segment "a" [([("a", "x")], 1), ([("a", "y")], 1)] 1 = "x" ∧
      convert_segment_indexed "a"
        (merge_in_precedence [[("a", "x")], [("a", "y")]])
        (StarterIndex.build [[("a", "x")], [("a", "y")]]
          (global_cap_of [([("a", "x")], 1), ([("a", "y")], 1)] 1))
        (global_cap_of [([("a", "x")], 1), ([("a", "y")], 1)] 1) = "y" ∧
      ("x" : String) ≠ "y" := by
  refine ⟨by decide, by decide, by decide⟩

/-- **C2, amended.**  The legacy scanner `convert_segment` and the indexed
scanner `convert_segment_indexed` (over the merged map and starter index
built from the same slots, with the cap `segment_replace` computes) produce
identical output for every segment and max word length, *provided* the
slots are well-formed: each Python dict has no duplicate keys, each slot's
declared max length bounds its key lengths, key lengths stay within the
64-bit mask range, slots sharing a key agree on its value (otherwise the
legacy first-slot-wins and merged last-slot-wins orders diverge, see the
counterexample), and replacement values are non-empty (Python's
`if best_match:` truthiness skips an empty-string hit). -/
theorem C2_amended (dicts : List (PyDict × Nat)) (max_word_length : Nat)
    (segment : String)
    (H0 : ∀ p ∈ dicts, (p.1.map Prod.fst).Nodup)
    (H1 : ∀ p ∈ dicts, ∀ kv ∈ p.1, kv.1.length ≤ p.2)
    (H2 : ∀ p ∈ dicts, ∀ kv ∈ p.1, kv.1.length ≤ 64)
    (H3 : ∀ p ∈ dicts, ∀ q ∈ dicts, ∀ kv ∈ p.1, ∀ kw ∈ q.1,
      kv.1 = kw.1 → kv.2 = kw.2)
    (H4 : ∀ p ∈ dicts, ∀ kv ∈ p.1, kv.2 ≠ "") :
    convert_segment segment dicts max_word_length =
      convert_segment_indexed segment
        (merge_in_precedence (dicts.map Prod.fst))
        (StarterIndex.build (dicts.map Prod.fst)
          (global_cap_of dicts max_word_length))
        (global_cap_of dicts max_word_length) := by
  unfold convert_segment convert_segment_indexed
  by_cases he : segment.data = [] ∨ isSingleDelimiter segment
  · rw [if_pos he, if_pos he]
  · rw [if_neg he, if_neg he]
    congr 1
    refine loops_eq dicts max_word_length _ _ _ ?_ segment.data.length
      segment.data
    intro c rest
    rw [legacyChoice_eq_refTry_merged dicts max_word_length (c :: rest)
      H0 H1 H3 H4,
      indexedChoice_eq_refTry dicts max_word_length c rest H1 H2]
    rfl

/-- Witness for `C2_amended` on a concrete well-formed slot list. -/
theorem C2_amended_witness :
    convert_segment "ab" [([("ab", "c")], 2)] 2 =
      convert_segment_indexed "ab" (merge_in_precedence [[("ab", "c")]])
        (StarterIndex.build [[("ab", "c")]]
          (global_cap_of [([("ab", "c")], 2)] 2))
        (global_cap_of [([("ab", "c")], 2)] 2) :=
  C2_amended [([("ab", "c")], 2)] 2 "ab" (by decide) (by decide) (by decide)
    (by decide) (by decide)

/-- **C3 (confirmed).**  Longest match wins in the indexed scanner: when the
per-position choice of `convert_segment_indexed` picks a match of length
`L`, no key of the round's merged map longer than `L` matches the text at
that position.  The hypotheses record that the merged map and index are the
round's own (built from the same slots with the cap `segment_replace`
computes), that each slot's declared max length bounds its key lengths,
that key lengths fit the 64-bit mask, and that `max_word_length` dominates
the declared lengths (as `DictRefs` guarantees, passing their maximum). -/
theorem C3_longest_match (dicts : List (PyDict × Nat)) (max_word_length : Nat)
    (c : Char) (rest : List Char) (v : String) (L : Nat)
    (H1 : ∀ p ∈ dicts, ∀ kv ∈ p.1, kv.1.length ≤ p.2)
    (H2 : ∀ p ∈ dicts, ∀ kv ∈ p.1, kv.1.length ≤ 64)
    (H5 : cap_from_dicts dicts ≤ max_word_length)
    (hchoice : indexedChoice (merge_in_precedence (dicts.map Prod.fst))
      (StarterIndex.build (dicts.map Prod.fst)
        (global_cap_of dicts max_word_length))
      (global_cap_of dicts max_word_length) (c :: rest) = some (v, L)) :
    ∀ (k v2 : String),
      dictGet (merge_in_precedence (dicts.map Prod.fst)) k = some v2 →
      String.mk ((c :: rest).take k.length) = k → k.length ≤ L := by
  rw [indexedChoice_eq_refTry dicts max_word_length c rest H1 H2] at hchoice
  rcases refTry_spec _ _ _ _ hchoice with ⟨hL1, hL2, hL3, hmax⟩
  intro k v2 hk hmatch
  by_contra hgt
  push_neg at hgt
  have hdata : k.data = (c :: rest).take k.length :=
    (congrArg String.data hmatch).symm
  have hklen : k.length ≤ rest.length + 1 := by
    have hlen := congrArg List.length hdata
    rw [List.length_take] at hlen
    simp only [List.length_cons] at hlen
    have hkl : k.data.length = k.length := rfl
    omega
  rcases merged_entry dicts k v2 hk with ⟨p, hp, hkp⟩
  have hkmwl : k.length ≤ max_word_length := by
    have ha : k.length ≤ p.2 := H1 p hp (k, v2) hkp
    have hb := le_cap_from_dicts dicts p hp
    omega
  have hnone := hmax k.length hgt (by omega)
  have hsome2 : dictGet (merge_in_precedence (dicts.map Prod.fst))
      (String.mk ((c :: rest).take k.length)) = some v2 := by
    rw [hmatch]
    exact hk
  rw [hnone] at hsome2
  cases hsome2

/-- Witness for `C3_longest_match` at a concrete one-slot round. -/
theorem C3_longest_match_witness : ("ab" : String).length ≤ 2 :=
  C3_longest_match [([("ab", "X")], 2)] 2 'a' ['b'] "X" 2 (by decide)
    (by decide) (by decide) (by decide) "ab" "X" (by decide) (by decide)

/-! ## Termination of the scan loops (C10) -/

theorem tryLengthsPy_pos (dicts : List (PyDict × Nat)) (chars : List Char) :
    ∀ (n : Nat) (best : Option (String × Nat)) (v : String) (len : Nat),
      (∀ w l, best = some (w, l) → 1 ≤ l) →
      tryLengthsPy dicts chars n best = some (v, len) → 1 ≤ len := by
  intro n
  induction n with
  | zero => intro best v len hb h; exact hb v len h
  | succ l ih =>
      intro best v len hb h
      have hstep : tryLengthsPy dicts chars (l + 1) best =
          match firstDictHit dicts (String.mk (chars.take (l + 1))) (l + 1) with
          | some w =>
              if w = "" then tryLengthsPy dicts chars l (some (w, l + 1))
              else some (w, l + 1)
          | none => tryLengthsPy dicts chars l best := rfl
      rcases hh : firstDictHit dicts (String.mk (chars.take (l + 1))) (l + 1)
        with _ | w
      · rw [hstep, hh] at h
        exact ih best v len hb h
      · rw [hstep, hh] at h
        have h2 : (if w = "" then tryLengthsPy dicts chars l (some (w, l + 1))
            else some (w, l + 1)) = some (v, len) := h
        by_cases hw : w = ""
        · rw [if_pos hw] at h2
          refine ih _ v len ?_ h2
          intro w2 l2 he
          injection he with he'
          have : l + 1 = l2 := congrArg Prod.snd he'
          omega
        · rw [if_neg hw] at h2
          injection h2 with h'
          have : l + 1 = len := congrArg Prod.snd h'
          omega

theorem legacyChoice_pos (dicts : List (PyDict × Nat)) (max_word_length : Nat)
    (cs : List Char) (v : String) (len : Nat)
    (h : legacyChoice dicts max_word_length cs = some (v, len)) : 1 ≤ len :=
  tryLengthsPy_pos dicts cs (min max_word_length cs.length) none v len
    (fun _ _ he => by cases he) h

theorem maskWalkF_pos (merged_map : PyDict) (chars : List Char) :
    ∀ (f m : Nat) (v : String) (L : Nat),
      maskWalkF merged_map chars f m = some (v, L) → 1 ≤ L := by
  intro f
  induction f with
  | zero => intro m v L h; cases h
  | succ f ih =>
      intro m v L h
      by_cases hm : m = 0
      · rw [hm, maskWalkF_zero] at h
        cases h
      · rw [maskWalkF_succ merged_map chars f m hm] at h
        rcases hg : dictGet merged_map (String.mk (chars.take (bitLength m)))
          with _ | w
        · rw [hg] at h
          exact ih _ v L h
        · rw [hg] at h
          injection h with h'
          have hbl : bitLength m = L := congrArg Prod.snd h'
          have := bitLength_pos m hm
          omega

theorem indexedChoice_pos (merged_map : PyDict) (starter_index : StarterIndex)
    (global_cap : Nat) (cs : List Char) (v : String) (L : Nat)
    (h : indexedChoice merged_map starter_index global_cap cs = some (v, L)) :
    1 ≤ L := by
  rcases cs with _ | ⟨c, rest⟩
  · cases h
  · show 1 ≤ L
    have hstep : indexedChoice merged_map starter_index global_cap (c :: rest) =
        if (starter_index.get_mask_cap c.toNat).1 = 0 ∨
            (starter_index.get_mask_cap c.toNat).2 = 0 then none
        else maskWalk merged_map (c :: rest)
          ((starter_index.get_mask_cap c.toNat).1 %
            2 ^ min (rest.length + 1)
              (min (starter_index.get_mask_cap c.toNat).2 global_cap)) := rfl
    rw [hstep] at h
    by_cases hz : (starter_index.get_mask_cap c.toNat).1 = 0 ∨
        (starter_index.get_mask_cap c.toNat).2 = 0
    · rw [if_pos hz] at h
      cases h
    · rw [if_neg hz] at h
      exact maskWalkF_pos merged_map (c :: rest) _ _ v L h

theorem convert_segment_loop_nil (dicts : List (PyDict × Nat))
    (max_word_length f : Nat) :
    convert_segment_loop dicts max_word_length f [] = [] := by
  cases f <;> rfl

theorem convert_segment_indexed_loop_nil (merged_map : PyDict)
    (starter_index : StarterIndex) (global_cap f : Nat) :
    convert_segment_indexed_loop merged_map starter_index global_cap f [] = [] := by
  cases f <;> rfl

theorem convert_segment_loop_irrel (dicts : List (PyDict × Nat))
    (max_word_length : Nat) :
    ∀ (n : Nat) (cs : List Char) (f1 f2 : Nat), cs.length ≤ n →
      cs.length ≤ f1 → cs.length ≤ f2 →
      convert_segment_loop dicts max_word_length f1 cs =
        convert_segment_loop dicts max_word_length f2 cs := by
  intro n
  induction n with
  | zero =>
      intro cs f1 f2 hn _ _
      have hcs : cs = [] := List.eq_nil_of_length_eq_zero (by omega)
      subst hcs
      rw [convert_segment_loop_nil, convert_segment_loop_nil]
  | succ n ih =>
      intro cs f1 f2 hn h1 h2
      rcases cs with _ | ⟨c, rest⟩
      · rw [convert_segment_loop_nil, convert_segment_loop_nil]
      · simp only [List.length_cons] at hn h1 h2
        rcases f1 with _ | a
        · omega
        rcases f2 with _ | b
        · omega
        show (match legacyChoice dicts max_word_length (c :: rest) with
          | some (v, len) =>
              v.data ++ convert_segment_loop dicts max_word_length a
                ((c :: rest).drop len)
          | none => c :: convert_segment_loop dicts max_word_length a rest) =
          (match legacyChoice dicts max_word_length (c :: rest) with
          | some (v, len) =>
              v.data ++ convert_segment_loop dicts max_word_length b
                ((c :: rest).drop len)
          | none => c :: convert_segment_loop dicts max_word_length b rest)
        rcases hc : legacyChoice dicts max_word_length (c :: rest)
          with _ | ⟨v, len⟩
        · rw [ih rest a b (by omega) (by omega) (by omega)]
        · have hpos := legacyChoice_pos dicts max_word_length (c :: rest) v len hc
          have hdl : ((c :: rest).drop len).length = rest.length + 1 - len := by
            rw [List.length_drop]
            simp
          show v.data ++ convert_segment_loop dicts max_word_length a
              ((c :: rest).drop len) =
            v.data ++ convert_segment_loop dicts max_word_length b
              ((c :: rest).drop len)
          rw [ih ((c :: rest).drop len) a b (by omega) (by omega) (by omega)]

theorem convert_segment_indexed_loop_irrel (merged_map : PyDict)
    (starter_index : StarterIndex) (global_cap : Nat) :
    ∀ (n : Nat) (cs : List Char) (f1 f2 : Nat), cs.length ≤ n →
      cs.length ≤ f1 → cs.length ≤ f2 →
      convert_segment_indexed_loop merged_map starter_index global_cap f1 cs =
        convert_segment_indexed_loop merged_map starter_index global_cap f2 cs := by
  intro n
  induction n with
  | zero =>
      intro cs f1 f2 hn _ _
      have hcs : cs = [] := List.eq_nil_of_length_eq_zero (by omega)
      subst hcs
      rw [convert_segment_indexed_loop_nil, convert_segment_indexed_loop_nil]
  | succ n ih =>
      intro cs f1 f2 hn h1 h2
      rcases cs with _ | ⟨c, rest⟩
      · rw [convert_segment_indexed_loop_nil, convert_segment_indexed_loop_nil]
      · simp only [List.length_cons] at hn h1 h2
        rcases f1 with _ | a
        · omega
        rcases f2 with _ | b
        · omega
        show (match indexedChoice merged_map starter_index global_cap (c :: rest) with
          | some (repl, L) =>
              repl.data ++ convert_segment_indexed_loop merged_map starter_index
                global_cap a ((c :: rest).drop L)
          | none =>
              c :: convert_segment_indexed_loop merged_map starter_index
                global_cap a rest) =
          (match indexedChoice merged_map starter_index global_cap (c :: rest) with
          | some (repl, L) =>
              repl.data ++ convert_segment_indexed_loop merged_map starter_index
                global_cap b ((c :: rest).drop L)
          | none =>
              c :: convert_segment_indexed_loop merged_map starter_index
                global_cap b rest)
        rcases hc : indexedChoice merged_map starter_index global_cap (c :: rest)
          with _ | ⟨v, len⟩
        · rw [ih rest a b (by omega) (by omega) (by omega)]
        · have hpos := indexedChoice_pos merged_map starter_index global_cap
            (c :: rest) v len hc
          have hdl : ((c :: rest).drop len).length = rest.length + 1 - len := by
            rw [List.length_drop]
            simp
          show v.data ++ convert_segment_indexed_loop merged_map starter_index
              global_cap a ((c :: rest).drop len) =
            v.data ++ convert_segment_indexed_loop merged_map starter_index
              global_cap b ((c :: rest).drop len)
          rw [ih ((c :: rest).drop len) a b (by omega) (by omega) (by omega)]

/-- **C10 (confirmed).**  Both scanners are total: every loop iteration
advances the position by at least one scalar value (a chosen match has
length ≥ 1 — `legacyChoice_pos` / `indexedChoice_pos` — and the no-match
branch advances by 1), so `length cs` iterations of fuel always suffice:
any fuel at least the suffix length produces the same output as fuel
exactly the suffix length, for *any* (possibly adversarial) dictionary
list, merged map, starter index and cap. -/
theorem C10_scanners_terminate (dicts : List (PyDict × Nat))
    (max_word_length : Nat) (merged_map : PyDict)
    (starter_index : StarterIndex) (global_cap : Nat) (cs : List Char)
    (fuel : Nat) (h : cs.length ≤ fuel) :
    convert_segment_loop dicts max_word_length fuel cs =
      convert_segment_loop dicts max_word_length cs.length cs ∧
    convert_segment_indexed_loop merged_map starter_index global_cap fuel cs =
      convert_segment_indexed_loop merged_map starter_index global_cap
        cs.length cs :=
  ⟨convert_segment_loop_irrel dicts max_word_length cs.length cs fuel cs.length
      (Nat.le_refl _) h (Nat.le_refl _),
    convert_segment_indexed_loop_irrel merged_map starter_index global_cap
      cs.length cs fuel cs.length (Nat.le_refl _) h (Nat.le_refl _)⟩

/-- Witness for `C10_scanners_terminate` at concrete inputs. -/
theorem C10_scanners_terminate_witness :
    convert_segment_loop [] 0 5 ['a'] = convert_segment_loop [] 0 1 ['a'] ∧
      convert_segment_indexed_loop [] (StarterIndex.init 1) 1 5 ['a'] =
        convert_segment_indexed_loop [] (StarterIndex.init 1) 1 1 ['a'] :=
  C10_scanners_terminate [] 0 [] (StarterIndex.init 1) 1 ['a'] 5 (by decide)

/-! ## Parallel driver (`chunk_ranges`, `convert_range_group_indexed`) -/

/-- Repeated take/drop: the Python comprehension
`[ranges[i:i+chunk_size] for i in range(0, len(ranges), chunk_size)]`.
(`chunk_size = 0` only arises for an empty range list — where Python's
`range` would reject a zero step — and is mapped to `[]` here; the parallel
guard `len(ranges) > 1000` keeps all uses away from that corner.) -/
def chunksOf {α : Type} (n : Nat) : List α → List (List α)
  | [] => []
  | x :: xs =>
      if h : n = 0 then []
      else (x :: xs).take n :: chunksOf n ((x :: xs).drop n)
  termination_by l => l.length
  decreasing_by
    simp only [List.length_drop, List.length_cons]
    omega

/-- `core.chunk_ranges`: `chunk_size = (len(ranges) + group_count - 1) //
group_count`, then the consecutive slices of that size. -/
def chunk_ranges (ranges : List (Nat × Nat)) (group_count : Nat) :
    List (List (Nat × Nat)) :=
  chunksOf ((ranges.length + group_count - 1) / group_count) ranges

/-- `core.convert_range_group_indexed`: convert one group of `(start, end)`
ranges with the indexed scanner and join the pieces in order. -/
def convert_range_group_indexed (text : String) (group : List (Nat × Nat))
    (merged_map : PyDict) (starter_index : StarterIndex) (global_cap : Nat) :
    String :=
  strJoin (group.map (fun p =>
    convert_segment_indexed (pySlice text p.1 p.2) merged_map starter_index
      global_cap))

/-- `core.convert_range_group` (legacy parallel worker). -/
def convert_range_group (text : String) (group : List (Nat × Nat))
    (dictionaries : List (PyDict × Nat)) (max_word_length : Nat) : String :=
  strJoin (group.map (fun p =>
    convert_segment (pySlice text p.1 p.2) dictionaries max_word_length))

theorem chunksOf_flatten {α : Type} (n : Nat) (hn : 1 ≤ n) :
    ∀ (N : Nat) (l : List α), l.length ≤ N → (chunksOf n l).flatten = l := by
  intro N
  induction N with
  | zero =>
      intro l h
      have hl : l = [] := List.eq_nil_of_length_eq_zero (by omega)
      subst hl
      rw [chunksOf]
      rfl
  | succ N ih =>
      intro l h
      rcases l with _ | ⟨x, xs⟩
      · rw [chunksOf]
        rfl
      · have hlen : xs.length + 1 ≤ N + 1 := by simpa using h
        rw [chunksOf, dif_neg (by omega), List.flatten_cons,
          ih ((x :: xs).drop n)
            (by simp only [List.length_drop, List.length_cons]; omega),
          List.take_append_drop]

theorem flatten_map_flatten {α β : Type} (g : α → List β)
    (chunks : List (List α)) :
    (chunks.map (fun grp => (grp.map g).flatten)).flatten =
      (chunks.flatten.map g).flatten := by
  induction chunks with
  | nil => rfl
  | cons grp rest ih =>
      simp only [List.map_cons, List.flatten_cons, List.map_append,
        List.flatten_append, ih]

theorem strJoin_chunks (f : (Nat × Nat) → String)
    (chunks : List (List (Nat × Nat))) :
    strJoin (chunks.map (fun grp => strJoin (grp.map f))) =
      strJoin (chunks.flatten.map f) := by
  unfold strJoin
  refine congrArg String.mk ?_
  have h1 : (chunks.map (fun grp => String.mk ((grp.map f).map String.data).flatten)).map
      String.data = chunks.map (fun grp => ((grp.map f).map String.data).flatten) := by
    rw [List.map_map]
    rfl
  rw [h1]
  have h2 : ∀ grp : List (Nat × Nat),
      ((grp.map f).map String.data) = grp.map (fun p => (f p).data) := by
    intro grp
    rw [List.map_map]
    rfl
  calc (chunks.map (fun grp => ((grp.map f).map String.data).flatten)).flatten
      = (chunks.map (fun grp => (grp.map (fun p => (f p).data)).flatten)).flatten := by
        refine congrArg List.flatten (List.map_congr_left ?_)
        intro grp _
        rw [h2]
    _ = (chunks.flatten.map (fun p => (f p).data)).flatten :=
        flatten_map_flatten _ chunks
    _ = ((chunks.flatten.map f).map String.data).flatten := by
        rw [List.map_map]
        rfl

/-- **C5 (confirmed).**  Parallel determinism: when the parallel guard of
`segment_replace` holds (more than 1000 ranges and at least 1,000,000
scalar values) and there is at least one worker group, the concatenation of
the per-group conversions over the contiguous chunks of the ranges equals
the serial path's output on the same ranges, and chunking drops,
duplicates and reorders nothing (`flatten (chunk_ranges R G) = R`). -/
theorem C5_parallel_determinism (text : String) (merged_map : PyDict)
    (starter_index : StarterIndex) (global_cap : Nat) (group_count : Nat)
    (ranges : List (Nat × Nat))
    (hr : ranges.length > 1000) (ht : text.length ≥ 1000000)
    (hg : 1 ≤ group_count) :
    strJoin ((chunk_ranges ranges group_count).map
        (fun group => convert_range_group_indexed text group merged_map
          starter_index global_cap)) =
      strJoin (ranges.map (fun p =>
        convert_segment_indexed (pySlice text p.1 p.2) merged_map starter_index
          global_cap)) ∧
    (chunk_ranges ranges group_count).flatten = ranges := by
  have hsize : 1 ≤ (ranges.length + group_count - 1) / group_count := by
    rw [Nat.le_div_iff_mul_le (by omega)]
    omega
  have hflat : (chunk_ranges ranges group_count).flatten = ranges :=
    chunksOf_flatten _ hsize ranges.length ranges (Nat.le_refl _)
  refine ⟨?_, hflat⟩
  unfold convert_range_group_indexed
  rw [strJoin_chunks (fun p =>
    convert_segment_indexed (pySlice text p.1 p.2) merged_map starter_index
      global_cap) (chunk_ranges ranges group_count), hflat]

/-- Witness for `C5_parallel_determinism`: 1001 unit ranges over a
1,000,000-character text, four worker groups. -/
theorem C5_parallel_determinism_witness :
    strJoin ((chunk_ranges (List.replicate 1001 ((0 : Nat), (1 : Nat))) 4).map
        (fun group => convert_range_group_indexed
          (String.mk (List.replicate 1000000 'a')) group []
          (StarterIndex.init 1) 1)) =
      strJoin ((List.replicate 1001 ((0 : Nat), (1 : Nat))).map (fun p =>
        convert_segment_indexed
          (pySlice (String.mk (List.replicate 1000000 'a')) p.1 p.2) []
          (StarterIndex.init 1) 1)) ∧
    (chunk_ranges (List.replicate 1001 ((0 : Nat), (1 : Nat))) 4).flatten =
      List.replicate 1001 ((0 : Nat), (1 : Nat)) :=
  C5_parallel_determinism (String.mk (List.replicate 1000000 'a')) []
    (StarterIndex.init 1) 1 4 (List.replicate 1001 ((0 : Nat), (1 : Nat)))
    (by rw [List.length_replicate]; omega)
    (by rw [String.length_mk, List.length_replicate]) (by omega)

/-! ## Dictionary text load (`DictionaryMaxlength.load_dictionary_maxlength`)

Python `str.strip()` / `str.split()` / `str.splitlines()` act on the ASCII
whitespace and line-break characters below; the additional Unicode
whitespace they also recognise does not occur in dictionary files and is
omitted from the model. -/

/-- ASCII whitespace recognised by Python `strip`/`split`. -/
def isPyWhitespace (c : Char) : Bool :=
  c = ' ' || c = '\t' || c = '\n' || c = '\r' || c = '\x0b' || c = '\x0c'

/-- Python `s.strip()`. -/
def pyStrip (cs : List Char) : List Char :=
  ((cs.dropWhile isPyWhitespace).reverse.dropWhile isPyWhitespace).reverse

/-- Python `s.splitlines()` (on `\n`, `\r\n`, `\r`); `cur` accumulates the
current line reversed. -/
def splitlinesAux : List Char → List Char → List (List Char)
  | [], cur => if cur = [] then [] else [cur.reverse]
  | '\r' :: '\n' :: rest, cur => cur.reverse :: splitlinesAux rest []
  | '\n' :: rest, cur => cur.reverse :: splitlinesAux rest []
  | '\r' :: rest, cur => cur.reverse :: splitlinesAux rest []
  | c :: rest, cur => splitlinesAux rest (c :: cur)

/-- Python `s.splitlines()`. -/
def pySplitlines (cs : List Char) : List (List Char) :=
  splitlinesAux cs []

/-- Python `s.split()` (split on whitespace runs, no empty tokens); `cur`
accumulates the current token reversed. -/
def pySplitAux : List Char → List Char → List (List Char)
  | [], cur => if cur = [] then [] else [cur.reverse]
  | c :: rest, cur =>
      if isPyWhitespace c then
        if cur = [] then pySplitAux rest []
        else cur.reverse :: pySplitAux rest []
      else pySplitAux rest (c :: cur)

/-- Python `s.split()`. -/
def pySplit (cs : List Char) : List (List Char) :=
  pySplitAux cs []

/-- One line of `load_dictionary_maxlength`: `parts = line.strip().split()`;
with at least two parts, `dictionary[parts[0]] = parts[1]` and
`max_length = max(max_length, len(parts[0]))`; otherwise the line is
skipped (after a warning). -/
def loadLineStep (acc : PyDict × Nat) (line : List Char) : PyDict × Nat :=
  match pySplit (pyStrip line) with
  | phrase :: translation :: _ =>
      (setItem acc.1 (String.mk phrase) (String.mk translation),
        max acc.2 phrase.length)
  | _ => acc

/-- `DictionaryMaxlength.load_dictionary_maxlength`. -/
def load_dictionary_maxlength (content : String) : PyDict × Nat :=
  (pySplitlines (pyStrip content.data)).foldl loadLineStep ([], 1)

/-- **C7, counterexample.**  A line beginning with `#` is *not* skipped:
the loader has no comment handling, so the content `"#\ta"` produces the
entry `"#" → "a"` — the claim says comment lines contribute no entry.
(The loader also splits on any whitespace run, not on the first TAB.) -/
theorem C7_counterexample :
    dictGet (load_dictionary_maxlength "#\ta").1 "#" = some "a" := by
  decide

theorem loadFold_provenance :
    ∀ (lines : List (List Char)) (acc : PyDict × Nat) (key v : String),
      dictGet (lines.foldl loadLineStep acc).1 key = some v →
      dictGet acc.1 key = some v ∨
        ∃ line ∈ lines, ∃ rest,
          pySplit (pyStrip line) = key.data :: v.data :: rest := by
  intro lines
  induction lines with
  | nil => intro acc key v h; exact Or.inl h
  | cons line rest ih =>
      intro acc key v h
      rw [List.foldl_cons] at h
      rcases ih (loadLineStep acc line) key v h with h1 | ⟨l2, hl2, r2, hr2⟩
      · unfold loadLineStep at h1
        rcases hparts : pySplit (pyStrip line) with _ | ⟨phrase, tail⟩
        · rw [hparts] at h1
          exact Or.inl h1
        · rcases tail with _ | ⟨translation, tail2⟩
          · rw [hparts] at h1
            exact Or.inl h1
          · rw [hparts] at h1
            have h2 : dictGet (setItem acc.1 (String.mk phrase)
                (String.mk translation)) key = some v := h1
            rw [dictGet_setItem] at h2
            by_cases hk : String.mk phrase = key
            · rw [if_pos hk] at h2
              injection h2 with h3
              refine Or.inr ⟨line, List.mem_cons_self _ _, tail2, ?_⟩
              rw [hparts, ← hk, ← h3]
            · rw [if_neg hk] at h2
              exact Or.inl h2
      · exact Or.inr ⟨l2, List.mem_cons_of_mem _ hl2, r2, hr2⟩

theorem loadFold_presence_mono :
    ∀ (lines : List (List Char)) (acc : PyDict × Nat) (key : String),
      (dictGet acc.1 key).isSome →
      (dictGet (lines.foldl loadLineStep acc).1 key).isSome := by
  intro lines
  induction lines with
  | nil => intro acc key h; exact h
  | cons line rest ih =>
      intro acc key h
      rw [List.foldl_cons]
      refine ih (loadLineStep acc line) key ?_
      unfold loadLineStep
      rcases hparts : pySplit (pyStrip line) with _ | ⟨phrase, tail⟩
      · exact h
      · rcases tail with _ | ⟨translation, tail2⟩
        · exact h
        · show (dictGet (setItem acc.1 (String.mk phrase)
            (String.mk translation)) key).isSome
          rw [dictGet_setItem]
          by_cases hk : String.mk phrase = key
          · rw [if_pos hk]; rfl
          · rw [if_neg hk]; exact h

/-- **C7, amended.**  The loader has no comment handling and splits on
whitespace runs rather than on the first TAB: (1) every entry of the loaded
dictionary comes from some line whose whitespace tokens start with the
entry's key followed by its value — so empty lines and lines with fewer
than two tokens contribute nothing, but a `#` line with two tokens *does*
contribute; (2) every line with at least two whitespace tokens contributes
an entry for its first token; malformed (short) lines are skipped with a
warning and never abort the load. -/
theorem C7_amended (content : String) :
    (∀ (key v : String),
      dictGet (load_dictionary_maxlength content).1 key = some v →
      ∃ line ∈ pySplitlines (pyStrip content.data), ∃ rest,
        pySplit (pyStrip line) = key.data :: v.data :: rest) ∧
    (∀ line ∈ pySplitlines (pyStrip content.data),
      ∀ (k v : List Char) (rest : List (List Char)),
        pySplit (pyStrip line) = k :: v :: rest →
        (dictGet (load_dictionary_maxlength content).1 (String.mk k)).isSome) := by
  constructor
  · intro key v h
    rcases loadFold_provenance (pySplitlines (pyStrip content.data)) ([], 1)
      key v h with h1 | h1
    · cases h1
    · exact h1
  · intro line hline k v rest hparts
    rcases List.append_of_mem hline with ⟨l1, l2, hsplit⟩
    unfold load_dictionary_maxlength
    rw [hsplit, List.foldl_append, List.foldl_cons]
    refine loadFold_presence_mono l2 _ (String.mk k) ?_
    unfold loadLineStep
    rw [hparts]
    show (dictGet (setItem _ (String.mk k) (String.mk v)) (String.mk k)).isSome
    rw [dictGet_setItem, if_pos rfl]
    rfl

/-- Witness for `C7_amended` on the concrete content `"a<TAB>b"`. -/
theorem C7_amended_witness :
    (∃ line ∈ pySplitlines (pyStrip ("a\tb" : String).data), ∃ rest,
      pySplit (pyStrip line) = ("a" : String).data :: ("b" : String).data :: rest) ∧
    (dictGet (load_dictionary_maxlength "a\tb").1 (String.mk ['a'])).isSome :=
  ⟨(C7_amended "a\tb").1 "a" "b" (by decide),
    (C7_amended "a\tb").2 ['a', '\t', 'b'] (by decide) ['a'] ['b'] [] (by decide)⟩

/-! ## Pipeline, configs and punctuation (`DictRefs`, `OpenCC.convert`) -/

/-- `PUNCT_S2T_MAP` of `core.py`. -/
def PUNCT_S2T_MAP : List (Char × Char) :=
  [('“', '「'), ('”', '」'), ('‘', '『'), ('’', '』')]

/-- `PUNCT_T2S_MAP` of `core.py`. -/
def PUNCT_T2S_MAP : List (Char × Char) :=
  [('「', '“'), ('」', '”'), ('『', '‘'), ('』', '’')]

/-- Python `str.translate` over a one-to-one character map. -/
def pyTranslate (m : List (Char × Char)) (s : String) : String :=
  String.mk (s.data.map (fun c =>
    match m.find? (fun p => p.1 == c) with
    | some p => p.2
    | none => c))

/-- The sixteen-slot bundle `DictionaryMaxlength`; the default constructor
(empty dicts, max length 0) is its `__init__`.  The optional serialized
starter-index blob is not modelled: the default bundle carries none, so
`try_get_starter_index` returns `None` and `segment_replace` always builds
the round's own index. -/
structure DictionaryMaxlength where
  st_characters : PyDict × Nat := ([], 0)
  st_phrases : PyDict × Nat := ([], 0)
  ts_characters : PyDict × Nat := ([], 0)
  ts_phrases : PyDict × Nat := ([], 0)
  tw_phrases : PyDict × Nat := ([], 0)
  tw_phrases_rev : PyDict × Nat := ([], 0)
  tw_variants : PyDict × Nat := ([], 0)
  tw_variants_rev : PyDict × Nat := ([], 0)
  tw_variants_rev_phrases : PyDict × Nat := ([], 0)
  hk_variants : PyDict × Nat := ([], 0)
  hk_variants_rev : PyDict × Nat := ([], 0)
  hk_variants_rev_phrases : PyDict × Nat := ([], 0)
  jps_characters : PyDict × Nat := ([], 0)
  jps_phrases : PyDict × Nat := ([], 0)
  jp_variants : PyDict × Nat := ([], 0)
  jp_variants_rev : PyDict × Nat := ([], 0)

/-- `OpenCC.segment_replace` as a pure function.  The per-instance caches
(`_merged_cache`, `_starter_idx_cache`, `_fast_cache`) are build-or-get
memoisation and never change the value computed; `try_get_starter_index`
yields `None` for a blob-less bundle, so the index is built from the
round's dictionaries and `fast_ok` is always true; `cpu_count()` enters
only through `group_count` and is passed in as `cpuCount`. -/
def segment_replace (cpuCount : Nat) (text : String)
    (dictionaries : List (PyDict × Nat)) (max_word_length : Nat) : String :=
  if text = "" then text
  else
    let active_dicts := dictionaries.map Prod.fst
    let global_cap := global_cap_of dictionaries max_word_length
    let merged_map := merge_in_precedence active_dicts
    let starter_idx := StarterIndex.build active_dicts global_cap
    let ranges := get_split_ranges text true
    if ranges = [(0, text.length)] then
      convert_segment_indexed text merged_map starter_idx global_cap
    else if ranges.length > 1000 ∧ text.length ≥ 1000000 then
      strJoin ((chunk_ranges ranges (min 4 (max 1 cpuCount))).map (fun group =>
        convert_range_group_indexed text group merged_map starter_idx
          global_cap))
    else
      strJoin (ranges.map (fun p =>
        convert_segment_indexed (pySlice text p.1 p.2) merged_map starter_idx
          global_cap))

/-- `DictRefs` (rounds 2 and 3 optional). -/
structure DictRefs where
  round_1 : List (PyDict × Nat)
  round_2 : Option (List (PyDict × Nat)) := none
  round_3 : Option (List (PyDict × Nat)) := none

/-- One entry of `DictRefs._get_max_lengths`:
`max((length for _, length in round_dicts), default=1)` for a truthy round
(`None` and `[]` are falsy and give `0`; a non-empty round gives the plain
maximum of its declared lengths). -/
def round_max_length : Option (List (PyDict × Nat)) → Nat
  | none => 0
  | some [] => 0
  | some (p :: rest) => (p :: rest).foldl (fun a q => max a q.2) 0

/-- `DictRefs.apply_segment_replace` with `OpenCC.segment_replace` as the
per-segment function: one pass per truthy round. -/
def DictRefs.apply_segment_replace (refs : DictRefs) (cpuCount : Nat)
    (input_text : String) : String :=
  let output := segment_replace cpuCount input_text refs.round_1
    (round_max_length (some refs.round_1))
  let output :=
    match refs.round_2 with
    | some (p :: rest) =>
        segment_replace cpuCount output (p :: rest)
          (round_max_length (some (p :: rest)))
    | _ => output
  match refs.round_3 with
  | some (p :: rest) =>
      segment_replace cpuCount output (p :: rest)
        (round_max_length (some (p :: rest)))
  | _ => output

/-- `OpenCC._get_dict_refs`: the config → rounds table. -/
def OpenCC.get_dict_refs (d : DictionaryMaxlength) (config_key : String) :
    Option DictRefs :=
  if config_key = "s2t" then
    some { round_1 := [d.st_phrases, d.st_characters] }
  else if config_key = "t2s" then
    some { round_1 := [d.ts_phrases, d.ts_characters] }
  else if config_key = "s2tw" then
    some { round_1 := [d.st_phrases, d.st_characters]
           round_2 := some [d.tw_variants] }
  else if config_key = "tw2s" then
    some { round_1 := [d.tw_variants_rev_phrases, d.tw_variants_rev]
           round_2 := some [d.ts_phrases, d.ts_characters] }
  else if config_key = "s2twp" then
    some { round_1 := [d.st_phrases, d.st_characters]
           round_2 := some [d.tw_phrases]
           round_3 := some [d.tw_variants] }
  else if config_key = "tw2sp" then
    some { round_1 := [d.tw_phrases_rev, d.tw_variants_rev_phrases,
             d.tw_variants_rev]
           round_2 := some [d.ts_phrases, d.ts_characters] }
  else if config_key = "s2hk" then
    some { round_1 := [d.st_phrases, d.st_characters]
           round_2 := some [d.hk_variants] }
  else if config_key = "hk2s" then
    some { round_1 := [d.hk_variants_rev_phrases, d.hk_variants_rev]
           round_2 := some [d.ts_phrases, d.ts_characters] }
  else if config_key = "t2tw" then
    some { round_1 := [d.tw_variants] }
  else if config_key = "t2twp" then
    some { round_1 := [d.tw_phrases]
           round_2 := some [d.tw_variants] }
  else if config_key = "tw2t" then
    some { round_1 := [d.tw_variants_rev_phrases, d.tw_variants_rev] }
  else if config_key = "tw2tp" then
    some { round_1 := [d.tw_variants_rev_phrases, d.tw_variants_rev]
           round_2 := some [d.tw_phrases_rev] }
  else if config_key = "t2hk" then
    some { round_1 := [d.hk_variants] }
  else if config_key = "hk2t" then
    some { round_1 := [d.hk_variants_rev_phrases, d.hk_variants_rev] }
  else if config_key = "t2jp" then
    some { round_1 := [d.jp_variants] }
  else if config_key = "jp2t" then
    some { round_1 := [d.jps_phrases, d.jps_characters, d.jp_variants_rev] }
  else none

/-- The body each conversion method shares: apply the rounds of
`_get_dict_refs(config_key)` (always present for the sixteen fixed keys;
the empty fallback can never fire for them). -/
def OpenCC.apply_config (d : DictionaryMaxlength) (cpuCount : Nat)
    (config_key : String) (input_text : String) : String :=
  match OpenCC.get_dict_refs d config_key with
  | some refs => refs.apply_segment_replace cpuCount input_text
  | none => input_text

/-- `OpenCC.s2t`. -/
def OpenCC.s2t (d : DictionaryMaxlength) (cpuCount : Nat)
    (input_text : String) (punctuation : Bool) : String :=
  let output := OpenCC.apply_config d cpuCount "s2t" input_text
  if punctuation then pyTranslate PUNCT_S2T_MAP output else output

/-- `OpenCC.t2s`. -/
def OpenCC.t2s (d : DictionaryMaxlength) (cpuCount : Nat)
    (input_text : String) (punctuation : Bool) : String :=
  let output := OpenCC.apply_config d cpuCount "t2s" input_text
  if punctuation then pyTranslate PUNCT_T2S_MAP output else output

/-- `OpenCC.s2tw`. -/
def OpenCC.s2tw (d : DictionaryMaxlength) (cpuCount : Nat)
    (input_text : String) (punctuation : Bool) : String :=
  let output := OpenCC.apply_config d cpuCount "s2tw" input_text
  if punctuation then pyTranslate PUNCT_S2T_MAP output else output

/-- `OpenCC.tw2s`. -/
def OpenCC.tw2s (d : DictionaryMaxlength) (cpuCount : Nat)
    (input_text : String) (punctuation : Bool) : String :=
  let output := OpenCC.apply_config d cpuCount "tw2s" input_text
  if punctuation then pyTranslate PUNCT_T2S_MAP output else output

/-- `OpenCC.s2twp`. -/
def OpenCC.s2twp (d : DictionaryMaxlength) (cpuCount : Nat)
    (input_text : String) (punctuation : Bool) : String :=
  let output := OpenCC.apply_config d cpuCount "s2twp" input_text
  if punctuation then pyTranslate PUNCT_S2T_MAP output else output

/-- `OpenCC.tw2sp`. -/
def OpenCC.tw2sp (d : DictionaryMaxlength) (cpuCount : Nat)
    (input_text : String) (punctuation : Bool) : String :=
  let output := OpenCC.apply_config d cpuCount "tw2sp" input_text
  if punctuation then pyTranslate PUNCT_T2S_MAP output else output

/-- `OpenCC.s2hk`. -/
def OpenCC.s2hk (d : DictionaryMaxlength) (cpuCount : Nat)
    (input_text : String) (punctuation : Bool) : String :=
  let output := OpenCC.apply_config d cpuCount "s2hk" input_text
  if punctuation then pyTranslate PUNCT_S2T_MAP output else output

/-- `OpenCC.hk2s`. -/
def OpenCC.hk2s (d : DictionaryMaxlength) (cpuCount : Nat)
    (input_text : String) (punctuation : Bool) : String :=
  let output := OpenCC.apply_config d cpuCount "hk2s" input_text
  if punctuation then pyTranslate PUNCT_T2S_MAP output else output

/-- `OpenCC.t2tw` — note: no punctuation parameter in the source. -/
def OpenCC.t2tw (d : DictionaryMaxlength) (cpuCount : Nat)
    (input_text : String) : String :=
  OpenCC.apply_config d cpuCount "t2tw" input_text

/-- `OpenCC.t2twp` — no punctuation parameter. -/
def OpenCC.t2twp (d : DictionaryMaxlength) (cpuCount : Nat)
    (input_text : String) : String :=
  OpenCC.apply_config d cpuCount "t2twp" input_text

/-- `OpenCC.tw2t` — no punctuation parameter. -/
def OpenCC.tw2t (d : DictionaryMaxlength) (cpuCount : Nat)
    (input_text : String) : String :=
  OpenCC.apply_config d cpuCount "tw2t" input_text

/-- `OpenCC.tw2tp` — no punctuation parameter. -/
def OpenCC.tw2tp (d : DictionaryMaxlength) (cpuCount : Nat)
    (input_text : String) : String :=
  OpenCC.apply_config d cpuCount "tw2tp" input_text

/-- `OpenCC.t2hk` — no punctuation parameter. -/
def OpenCC.t2hk (d : DictionaryMaxlength) (cpuCount : Nat)
    (input_text : String) : String :=
  OpenCC.apply_config d cpuCount "t2hk" input_text

/-- `OpenCC.hk2t` — no punctuation parameter. -/
def OpenCC.hk2t (d : DictionaryMaxlength) (cpuCount : Nat)
    (input_text : String) : String :=
  OpenCC.apply_config d cpuCount "hk2t" input_text

/-- `OpenCC.t2jp` — no punctuation parameter. -/
def OpenCC.t2jp (d : DictionaryMaxlength) (cpuCount : Nat)
    (input_text : String) : String :=
  OpenCC.apply_config d cpuCount "t2jp" input_text

/-- `OpenCC.jp2t` — no punctuation parameter. -/
def OpenCC.jp2t (d : DictionaryMaxlength) (cpuCount : Nat)
    (input_text : String) : String :=
  OpenCC.apply_config d cpuCount "jp2t" input_text

/-- `OpenCC.convert`: dispatch on `self.config` (always one of the sixteen
lowercase tags after `set_config`, so `config.lower()` is the identity on
it), branch order as in the source; only the eight S↔T configs forward the
punctuation flag. -/
def OpenCC.convert (d : DictionaryMaxlength) (cpuCount : Nat)
    (config : String) (input_text : String) (punctuation : Bool) : String :=
  if input_text = "" then ""
  else if config = "s2t" then OpenCC.s2t d cpuCount input_text punctuation
  else if config = "s2tw" then OpenCC.s2tw d cpuCount input_text punctuation
  else if config = "s2twp" then OpenCC.s2twp d cpuCount input_text punctuation
  else if config = "s2hk" then OpenCC.s2hk d cpuCount input_text punctuation
  else if config = "t2s" then OpenCC.t2s d cpuCount input_text punctuation
  else if config = "t2tw" then OpenCC.t2tw d cpuCount input_text
  else if config = "t2twp" then OpenCC.t2twp d cpuCount input_text
  else if config = "t2hk" then OpenCC.t2hk d cpuCount input_text
  else if config = "tw2s" then OpenCC.tw2s d cpuCount input_text punctuation
  else if config = "tw2sp" then OpenCC.tw2sp d cpuCount input_text punctuation
  else if config = "tw2t" then OpenCC.tw2t d cpuCount input_text
  else if config = "tw2tp" then OpenCC.tw2tp d cpuCount input_text
  else if config = "hk2s" then OpenCC.hk2s d cpuCount input_text punctuation
  else if config = "hk2t" then OpenCC.hk2t d cpuCount input_text
  else if config = "jp2t" then OpenCC.jp2t d cpuCount input_text
  else if config = "t2jp" then OpenCC.t2jp d cpuCount input_text
  else "Invalid config: " ++ config

/-- **C8, counterexample.**  With the default (empty) bundle, config
`t2tw` and `punctuation=True`, converting the left double quotation mark
U+201C leaves it unchanged: `convert` never passes the punctuation flag to
`t2tw` (the method does not even accept one), whereas the claim says every
Traditional-source config applies the four-character quote-pair
translation, which would give `「`. -/
theorem C8_counterexample :
    OpenCC.convert {} 1 "t2tw" "“" true = "“" ∧ ("“" : String) ≠ "「" :=
  ⟨by decide, by decide⟩

/-- **C8, amended.**  The punctuation flag is honoured only by the eight
configs routed through a punctuation-aware method — `s2t`, `s2tw`, `s2twp`,
`s2hk` (S→T quote map) and `t2s`, `tw2s`, `tw2sp`, `hk2s` (T→S quote map);
for `t2tw`, `t2twp`, `t2hk`, `tw2t`, `tw2tp`, `hk2t` and the Japanese
`t2jp`, `jp2t` the flag has no effect at all. -/
theorem C8_amended (d : DictionaryMaxlength) (cpuCount : Nat) (text : String) :
    (OpenCC.convert d cpuCount "s2t" text true =
      pyTranslate PUNCT_S2T_MAP (OpenCC.convert d cpuCount "s2t" text false)) ∧
    (OpenCC.convert d cpuCount "s2tw" text true =
      pyTranslate PUNCT_S2T_MAP (OpenCC.convert d cpuCount "s2tw" text false)) ∧
    (OpenCC.convert d cpuCount "s2twp" text true =
      pyTranslate PUNCT_S2T_MAP (OpenCC.convert d cpuCount "s2twp" text false)) ∧
    (OpenCC.convert d cpuCount "s2hk" text true =
      pyTranslate PUNCT_S2T_MAP (OpenCC.convert d cpuCount "s2hk" text false)) ∧
    (OpenCC.convert d cpuCount "t2s" text true =
      pyTranslate PUNCT_T2S_MAP (OpenCC.convert d cpuCount "t2s" text false)) ∧
    (OpenCC.convert d cpuCount "tw2s" text true =
      pyTranslate PUNCT_T2S_MAP (OpenCC.convert d cpuCount "tw2s" text false)) ∧
    (OpenCC.convert d cpuCount "tw2sp" text true =
      pyTranslate PUNCT_T2S_MAP (OpenCC.convert d cpuCount "tw2sp" text false)) ∧
    (OpenCC.convert d cpuCount "hk2s" text true =
      pyTranslate PUNCT_T2S_MAP (OpenCC.convert d cpuCount "hk2s" text false)) ∧
    (OpenCC.convert d cpuCount "t2tw" text true =
      OpenCC.convert d cpuCount "t2tw" text false) ∧
    (OpenCC.convert d cpuCount "t2twp" text true =
      OpenCC.convert d cpuCount "t2twp" text false) ∧
    (OpenCC.convert d cpuCount "t2hk" text true =
      OpenCC.convert d cpuCount "t2hk" text false) ∧
    (OpenCC.convert d cpuCount "tw2t" text true =
      OpenCC.convert d cpuCount "tw2t" text false) ∧
    (OpenCC.convert d cpuCount "tw2tp" text true =
      OpenCC.convert d cpuCount "tw2tp" text false) ∧
    (OpenCC.convert d cpuCount "hk2t" text true =
      OpenCC.convert d cpuCount "hk2t" text false) ∧
    (OpenCC.convert d cpuCount "t2jp" text true =
      OpenCC.convert d cpuCount "t2jp" text false) ∧
    (OpenCC.convert d cpuCount "jp2t" text true =
      OpenCC.convert d cpuCount "jp2t" text false) := by
  refine ⟨?_, ?_, ?_, ?_, ?_, ?_, ?_, ?_, ?_, ?_, ?_, ?_, ?_, ?_, ?_, ?_⟩
  all_goals
    by_cases h : text = ""
    · subst h
      rfl
    · unfold OpenCC.convert
      rw [if_neg h, if_neg h]
      rfl

/-! ## Language-detection helper (`OpenCC.zho_check`, `STRIP_REGEX`) -/

/-- The character class of `STRIP_REGEX` in `core.py`, piece by piece: the
four ASCII punctuation ranges (0x21-0x2F, 0x3A-0x40, 0x5B-0x60, 0x7B-0x7E),
the escaped whitespace TAB LF VT FF CR, the space, digits, upper- and
lower-case letters, the underscore — and the CJK character `著` (U+8457),
which the regex also strips. -/
def stripRegexMatch (c : Char) : Bool :=
  decide ((0x21 ≤ c.toNat ∧ c.toNat ≤ 0x2F) ∨ (0x3A ≤ c.toNat ∧ c.toNat ≤ 0x40) ∨
    (0x5B ≤ c.toNat ∧ c.toNat ≤ 0x60) ∨ (0x7B ≤ c.toNat ∧ c.toNat ≤ 0x7E) ∨
    c.toNat = 0x09 ∨ c.toNat = 0x0A ∨ c.toNat = 0x0B ∨ c.toNat = 0x0C ∨
    c.toNat = 0x0D ∨ c.toNat = 0x20 ∨
    (0x30 ≤ c.toNat ∧ c.toNat ≤ 0x39) ∨ (0x41 ≤ c.toNat ∧ c.toNat ≤ 0x5A) ∨
    (0x61 ≤ c.toNat ∧ c.toNat ≤ 0x7A) ∨ c.toNat = 0x5F ∨ c.toNat = 0x8457)

/-- The strip set the claim describes: exactly the ASCII
punctuation/whitespace/Latin-letter/digit characters, nothing else. -/
def asciiStripMatch (c : Char) : Bool :=
  decide ((0x21 ≤ c.toNat ∧ c.toNat ≤ 0x2F) ∨ (0x3A ≤ c.toNat ∧ c.toNat ≤ 0x40) ∨
    (0x5B ≤ c.toNat ∧ c.toNat ≤ 0x60) ∨ (0x7B ≤ c.toNat ∧ c.toNat ≤ 0x7E) ∨
    c.toNat = 0x09 ∨ c.toNat = 0x0A ∨ c.toNat = 0x0B ∨ c.toNat = 0x0C ∨
    c.toNat = 0x0D ∨ c.toNat = 0x20 ∨
    (0x30 ≤ c.toNat ∧ c.toNat ≤ 0x39) ∨ (0x41 ≤ c.toNat ∧ c.toNat ≤ 0x5A) ∨
    (0x61 ≤ c.toNat ∧ c.toNat ≤ 0x7A) ∨ c.toNat = 0x5F)

theorem strip_split (c : Char) :
    stripRegexMatch c = (asciiStripMatch c || (c.toNat == 0x8457)) := by
  unfold stripRegexMatch asciiStripMatch
  by_cases h2 : c.toNat = 0x8457
  · simp [h2]
  · simp [h2]

/-- `OpenCC.ts`: Traditional→Simplified characters only, legacy scanner,
max word length 1. -/
def OpenCC.ts (d : DictionaryMaxlength) (input_text : String) : String :=
  if input_text = "" then input_text
  else convert_segment input_text [d.ts_characters] 1

/-- `OpenCC.st`: Simplified→Traditional characters only, legacy scanner,
max word length 1. -/
def OpenCC.st (d : DictionaryMaxlength) (input_text : String) : String :=
  if input_text = "" then input_text
  else convert_segment input_text [d.st_characters] 1

/-- `OpenCC.zho_check`: strip `STRIP_REGEX` matches, keep the first 100
scalar values, compare with `ts` then `st`. -/
def OpenCC.zho_check (d : DictionaryMaxlength) (input_text : String) : Nat :=
  if input_text = "" then 0
  else
    let stripped :=
      String.mk (input_text.data.filter (fun c => !stripRegexMatch c))
    let strip_text := String.mk (stripped.data.take 100)
    if strip_text ≠ OpenCC.ts d strip_text then 1
    else if strip_text ≠ OpenCC.st d strip_text then 2
    else 0

/-- Modelled from the claim's words, for comparison with the code: strip
*exactly* the ASCII punctuation/whitespace/Latin-letter/digit characters
(and no other characters), take the first up to 100 scalar values as `s`,
and return 1 if `ts(s) ≠ s`, else 2 if `st(s) ≠ s`, else 0. -/
def zho_check_claim (d : DictionaryMaxlength) (input_text : String) : Nat :=
  if input_text = "" then 0
  else
    let stripped :=
      String.mk (input_text.data.filter (fun c => !asciiStripMatch c))
    let s := String.mk (stripped.data.take 100)
    if s ≠ OpenCC.ts d s then 1
    else if s ≠ OpenCC.st d s then 2
    else 0

/-- The claim's structure with the strip set amended to include `著`. -/
def zho_check_amended_spec (d : DictionaryMaxlength) (input_text : String) :
    Nat :=
  if input_text = "" then 0
  else
    let stripped := String.mk (input_text.data.filter
      (fun c => !(asciiStripMatch c || (c.toNat == 0x8457))))
    let s := String.mk (stripped.data.take 100)
    if s ≠ OpenCC.ts d s then 1
    else if s ≠ OpenCC.st d s then 2
    else 0

/-- **C9, counterexample.**  `STRIP_REGEX` also strips the CJK character
`著` (U+8457), so the claim's "and no other characters" fails: with a
bundle whose `ts_characters` maps `著`, the code strips `著` away and
returns 0 on input `"著"`, while the claim's description returns 1. -/
theorem C9_counterexample :
    OpenCC.zho_check { ts_characters := ([("著", "Z")], 1) } "著" = 0 ∧
      zho_check_claim { ts_characters := ([("著", "Z")], 1) } "著" = 1 ∧
      (0 : Nat) ≠ 1 :=
  ⟨by decide, by decide, by decide⟩

/-- **C9, amended.**  `zho_check` strips exactly the ASCII
punctuation/whitespace/Latin-letter/digit characters *plus the single CJK
character `著` (U+8457)*, takes the first up to 100 scalar values of the
result as `s`, and returns 1 if `ts(s) ≠ s`, else 2 if `st(s) ≠ s`, else
0, where `ts`/`st` are single-character conversions over `ts_characters` /
`st_characters` with max word length 1. -/
theorem C9_amended (d : DictionaryMaxlength) (input_text : String) :
    OpenCC.zho_check d input_text = zho_check_amended_spec d input_text := by
  unfold OpenCC.zho_check zho_check_amended_spec
  rw [show (fun c => !stripRegexMatch c) =
    (fun c => !(asciiStripMatch c || (c.toNat == 0x8457))) from
    funext (fun c => by rw [strip_split])]
